import Mathlib

/-!
Verification of the `zap` task manager's core engines against its
specification.  The Rust sources (`src/date_parser.rs`, `src/todo.rs`) are
shallowly embedded below:

* Rust `String` / `&str` values are embedded as `List Char`;
  byte-indexed operations (`str::find`, slicing `&s[..i]` / `&s[i..]`)
  are modelled on byte positions computed from `Char.utf8Size`, and a
  slice that would panic in Rust (out of range or not on a character
  boundary) is modelled as `none`.
* `chrono::NaiveDate` is embedded as `Int`: the number of days since
  1970-01-01 (which was a Thursday).  `Duration::days` is integer
  addition, `Weekday::num_days_from_monday` is modelled by
  `weekdayNumFromMonday`, and `NaiveDate::from_ymd_opt` by `from_ymd_opt`
  via the standard civil-calendar day count.  (chrono's cutoff for
  astronomically large years is not modelled.)
* `Local::now().date_naive()` is an ambient input; functions that read it
  take `today : Int` as an explicit parameter.
* Fallible code returns `Option`; in-place mutation is modelled by
  functions returning the new value.
-/

/-! ## String model -/

/-- Conversion of a Lean string literal to the `List Char` embedding. -/
def str (s : String) : List Char := s.toList

/-- Whitespace predicate used by Rust's `split_whitespace` and `trim`,
restricted to the ASCII whitespace characters (the non-ASCII Unicode
whitespace code points are not modelled). -/
def isWsRust (c : Char) : Bool := c = ' ' || c = '\t' || c = '\n' || c = '\r'

/-- Per-character model of Rust's `char::to_lowercase`: ASCII letters map to
their lowercase forms and the dotted capital I expands to two characters
(`i` followed by a combining dot above), exactly as in Unicode.  Other
non-ASCII characters are kept unchanged (their Unicode lowercase mappings
are not needed by any claim). -/
def charLowerRust (c : Char) : List Char :=
  if c = 'İ' then ['i', '̇'] else [c.toLower]

/-- Model of Rust's `str::to_lowercase`. -/
def toLowercase (s : List Char) : List Char := s.flatMap charLowerRust

/-- Byte length of the UTF-8 encoding of a character list (Rust's
`str::len`). -/
def byteLen (s : List Char) : Nat := (s.map Char.utf8Size).sum

/-- Model of the Rust slice `&s[..n]` where `n` is a byte index: `none` when
the slice would panic (index out of range or inside a multi-byte
character). -/
def takeBytes : List Char → Nat → Option (List Char)
  | _, 0 => some []
  | [], _ + 1 => none
  | c :: t, n + 1 =>
    if c.utf8Size ≤ n + 1 then (takeBytes t (n + 1 - c.utf8Size)).map (c :: ·)
    else none

/-- Model of the Rust slice `&s[n..]` where `n` is a byte index: `none` when
the slice would panic. -/
def dropBytes : List Char → Nat → Option (List Char)
  | s, 0 => some s
  | [], _ + 1 => none
  | c :: t, n + 1 =>
    if c.utf8Size ≤ n + 1 then dropBytes t (n + 1 - c.utf8Size)
    else none

/-- Character index of the first occurrence of `pat` as a contiguous
sublist of `s` (`none` when `pat` does not occur). -/
def findSubIdx (pat : List Char) : List Char → Option Nat
  | [] => if pat.isPrefixOf [] then some 0 else none
  | c :: t =>
    if pat.isPrefixOf (c :: t) then some 0
    else (findSubIdx pat t).map (· + 1)

/-- Byte position of the first occurrence of `pat` in `s`: the model of
Rust's `str::find` for an ASCII pattern (an ASCII byte sequence can occur
in UTF-8 text only at character boundaries). -/
def findBytePos (pat s : List Char) : Option Nat :=
  (findSubIdx pat s).map fun i => byteLen (s.take i)

/-- Model of Rust's `str::split_whitespace`: the maximal runs of
non-whitespace characters, in order (splitting at every whitespace
character and discarding the empty segments). -/
def wsWords (s : List Char) : List (List Char) :=
  (s.splitOnP isWsRust).filter (fun w => !w.isEmpty)

/-- Model of `s.split_whitespace().collect::<Vec<_>>().join(" ")`: the
whitespace-collapse-and-trim normalisation both parsers apply after
excising a directive. -/
def collapseWs (s : List Char) : List Char := List.intercalate [' '] (wsWords s)

/-- Model of Rust's `str::trim` (ASCII whitespace, see `isWsRust`). -/
def trimChars (s : List Char) : List Char :=
  ((s.dropWhile isWsRust).reverse.dropWhile isWsRust).reverse

/-! ## Priority parsing (`src/date_parser.rs`, `parse_priority`) -/

/-- Priority levels of a task (`todo.rs`).  The serde aliases only affect
persistence and are not modelled. -/
inductive Priority where
  | None
  | Low
  | Medium
  | High
  | Max
deriving DecidableEq

/-- Candidate markers of `parse_priority`, in the exact order the source
lists them: the four full forms `[priority:LEVEL]` from max down to low,
then the four short forms `[p:LEVEL]` from max down to low. -/
def priorityPatterns : List (List Char × Priority) :=
  [ (str "[priority:max]", Priority.Max)
  , (str "[priority:high]", Priority.High)
  , (str "[priority:medium]", Priority.Medium)
  , (str "[priority:low]", Priority.Low)
  , (str "[p:max]", Priority.Max)
  , (str "[p:high]", Priority.High)
  , (str "[p:medium]", Priority.Medium)
  , (str "[p:low]", Priority.Low) ]

/-- Loop body of `parse_priority`: try each candidate marker in order on the
lowercased text; on the first hit, excise the marker from the original text
at the byte positions found in the lowercased copy (a Rust slice panic is
modelled by `none`) and collapse whitespace. -/
def parsePriorityGo (text lower : List Char) :
    List (List Char × Priority) → Option (List Char × Priority)
  | [] => some (text, Priority.None)
  | (marker, p) :: rest =>
    match findBytePos marker lower with
    | some pos =>
      match takeBytes text pos, dropBytes text (pos + byteLen marker) with
      | some before, some after => some (collapseWs (before ++ after), p)
      | _, _ => none
    | none => parsePriorityGo text lower rest

/-- Model of `parse_priority` (`date_parser.rs` lines 9-39).  Returns `none`
exactly when the Rust function panics. -/
def parse_priority (input : List Char) : Option (List Char × Priority) :=
  parsePriorityGo input (toLowercase input) priorityPatterns

/-! ## Date model (`chrono::NaiveDate` as days since 1970-01-01) -/

/-- Weekday number with Monday = 0 (chrono's `num_days_from_monday`);
day 0 of the embedding (1970-01-01) was a Thursday, i.e. number 3. -/
def weekdayNumFromMonday (d : Int) : Int := (d + 3) % 7

/-- Weekdays (`chrono::Weekday`). -/
inductive Weekday where
  | mon | tue | wed | thu | fri | sat | sun
deriving DecidableEq

/-- Model of `Weekday::num_days_from_monday`. -/
def Weekday.numFromMonday : Weekday → Int
  | .mon => 0
  | .tue => 1
  | .wed => 2
  | .thu => 3
  | .fri => 4
  | .sat => 5
  | .sun => 6

/-- Gregorian leap year. -/
def isLeap (y : Int) : Bool := y % 4 = 0 && (y % 100 ≠ 0 || y % 400 = 0)

/-- Days in a month of a given year. -/
def daysInMonth (y m : Int) : Int :=
  if m = 2 then (if isLeap y then 29 else 28)
  else if m = 4 || m = 6 || m = 9 || m = 11 then 30
  else 31

/-- Day count since 1970-01-01 of a civil date (Howard Hinnant's
`days_from_civil`; `/` on `Int` is Euclidean division, which floors for
the positive divisors used here). -/
def daysFromCivil (y m d : Int) : Int :=
  let y' := if m ≤ 2 then y - 1 else y
  let era := y' / 400
  let yoe := y' - era * 400
  let mp := (m + 9) % 12
  let doy := (153 * mp + 2) / 5 + d - 1
  let doe := yoe * 365 + yoe / 4 - yoe / 100 + doy
  era * 146097 + doe - 719468

/-- Year of a day count (the year component of Hinnant's
`civil_from_days`); models chrono's `Datelike::year`. -/
def yearOfDays (z : Int) : Int :=
  let z' := z + 719468
  let era := z' / 146097
  let doe := z' - era * 146097
  let yoe := (doe - doe / 1460 + doe / 36524 - doe / 146096) / 365
  let y := yoe + era * 400
  let doy := doe - (365 * yoe + yoe / 4 - yoe / 100)
  let mp := (5 * doy + 2) / 153
  let m := mp + (if mp < 10 then 3 else -9)
  if m ≤ 2 then y + 1 else y

/-- Model of `NaiveDate::from_ymd_opt`: `some` day count exactly when the
month/day pair is a valid calendar date of year `y`. -/
def from_ymd_opt (y m d : Int) : Option Int :=
  if 1 ≤ m ∧ m ≤ 12 ∧ 1 ≤ d ∧ d ≤ daysInMonth y m then some (daysFromCivil y m d)
  else none

/-! ## Date directive parsing (`src/date_parser.rs`) -/

/-- Model of `parse_weekday` (`date_parser.rs` lines 161-172). -/
def parse_weekday (s : List Char) : Option Weekday :=
  if s = str "mon" ∨ s = str "monday" then some .mon
  else if s = str "tue" ∨ s = str "tues" ∨ s = str "tuesday" then some .tue
  else if s = str "wed" ∨ s = str "wednesday" then some .wed
  else if s = str "thu" ∨ s = str "thurs" ∨ s = str "thursday" then some .thu
  else if s = str "fri" ∨ s = str "friday" then some .fri
  else if s = str "sat" ∨ s = str "saturday" then some .sat
  else if s = str "sun" ∨ s = str "sunday" then some .sun
  else none

/-- Model of `next_weekday` (`date_parser.rs` lines 174-185). -/
def next_weekday (fromDay : Int) (target : Weekday) (skip_this_week : Bool) : Int :=
  let current := weekdayNumFromMonday fromDay
  let target_num := target.numFromMonday
  let days_ahead := target_num - current
  let days_ahead := if days_ahead ≤ 0 || skip_this_week then days_ahead + 7 else days_ahead
  fromDay + days_ahead

/-- Digit-string parser shared by the numeric field parsers. -/
def digitsToNat? : List Char → Option Nat
  | [] => none
  | s =>
    if s.all Char.isDigit then some (s.foldl (fun a c => a * 10 + (c.toNat - 48)) 0)
    else none

/-- Model of Rust's `str::parse::<u32>`: optional leading `+`, digits,
bounded by `u32::MAX`. -/
def parse_u32 (s : List Char) : Option Nat :=
  let body := match s with
    | '+' :: t => t
    | t => t
  match digitsToNat? body with
  | some n => if n ≤ 4294967295 then some n else none
  | none => none

/-- Model of Rust's `str::parse` for signed integers, bounded by `bound`
(used with `i32` and `i64` bounds). -/
def parse_int (bound : Int) (s : List Char) : Option Int :=
  match s with
  | '+' :: t => (digitsToNat? t).bind fun n =>
      if (n : Int) ≤ bound then some (n : Int) else none
  | '-' :: t => (digitsToNat? t).bind fun n =>
      if (n : Int) ≤ bound + 1 then some (-(n : Int)) else none
  | t => (digitsToNat? t).bind fun n =>
      if (n : Int) ≤ bound then some (n : Int) else none

/-- Model of `parse_slash_date` (`date_parser.rs` lines 113-159). -/
def parse_slash_date (s : List Char) (today : Int) : Option Int :=
  let parts := s.splitOn '/'
  if h2 : parts.length = 2 then
    match parse_u32 (parts.get ⟨0, by omega⟩), parse_u32 (parts.get ⟨1, by omega⟩) with
    | some month, some day =>
      if month < 1 ∨ month > 12 ∨ day < 1 ∨ day > 31 then none
      else
        let year := yearOfDays today
        match from_ymd_opt year (month : Int) (day : Int) with
        | some date =>
          let year := if date < today then year + 1 else year
          from_ymd_opt year (month : Int) (day : Int)
        | none => none
    | _, _ => none
  else if h3 : parts.length = 3 then
    match parse_u32 (parts.get ⟨0, by omega⟩), parse_u32 (parts.get ⟨1, by omega⟩),
        parse_int 2147483646 (parts.get ⟨2, by omega⟩) with
    | some month, some day, some year_part =>
      if month < 1 ∨ month > 12 ∨ day < 1 ∨ day > 31 then none
      else
        let year := if year_part < 100 then 2000 + year_part else year_part
        from_ymd_opt year (month : Int) (day : Int)
    | _, _, _ => none
  else none

/-- Month-name table of `parse_month_day`. -/
def monthName? (s : List Char) : Option Int :=
  if s = str "jan" ∨ s = str "january" then some 1
  else if s = str "feb" ∨ s = str "february" then some 2
  else if s = str "mar" ∨ s = str "march" then some 3
  else if s = str "apr" ∨ s = str "april" then some 4
  else if s = str "may" then some 5
  else if s = str "jun" ∨ s = str "june" then some 6
  else if s = str "jul" ∨ s = str "july" then some 7
  else if s = str "aug" ∨ s = str "august" then some 8
  else if s = str "sep" ∨ s = str "sept" ∨ s = str "september" then some 9
  else if s = str "oct" ∨ s = str "october" then some 10
  else if s = str "nov" ∨ s = str "november" then some 11
  else if s = str "dec" ∨ s = str "december" then some 12
  else none

/-- Model of `parse_month_day` (`date_parser.rs` lines 187-221). -/
def parse_month_day (s : List Char) (today : Int) : Option Int :=
  let parts := wsWords s
  if h2 : parts.length = 2 then
    match monthName? (parts.get ⟨0, by omega⟩) with
    | none => none
    | some month =>
      match parse_u32 (parts.get ⟨1, by omega⟩) with
      | none => none
      | some day =>
        let year := yearOfDays today
        match from_ymd_opt year month (day : Int) with
        | some date =>
          let year := if date < today then year + 1 else year
          from_ymd_opt year month (day : Int)
        | none => none
  else none

/-- Model of `parse_relative_days` (`date_parser.rs` lines 223-235):
`+N` or `Nd` with an `i64` payload. -/
def parse_relative_days (s : List Char) : Option Int :=
  match s with
  | '+' :: t => parse_int 9223372036854775806 t
  | _ =>
    match s.getLast? with
    | some 'd' => parse_int 9223372036854775806 (s.dropLast)
    | _ => none

/-- Model of `try_parse_date` (`date_parser.rs` lines 74-110): resolve a
(lowercased, trimmed) directive body against `today`. -/
def try_parse_date (s : List Char) (today : Int) : Option Int :=
  if s = str "today" ∨ s = str "tod" then some today
  else if s = str "tomorrow" ∨ s = str "tom" then some (today + 1)
  else if s = str "yesterday" then some (today - 1)
  else
    match (if (str "next ").isPrefixOf s then parse_weekday (s.drop 5) else none) with
    | some wd => some (next_weekday today wd true)
    | none =>
      match parse_weekday s with
      | some wd => some (next_weekday today wd false)
      | none =>
        match parse_month_day s today with
        | some date => some date
        | none =>
          match parse_relative_days s with
          | some days => some (today + days)
          | none => parse_slash_date s today

/-- Case-insensitive match of the ASCII keyword `kw` at the head of `s`
(the regex is compiled with `(?i)`); returns the rest of `s` on success. -/
def matchKeywordCI : List Char → List Char → Option (List Char)
  | [], s => some s
  | _ :: _, [] => none
  | k :: ks, c :: cs => if c.toLower = k then matchKeywordCI ks cs else none

/-- Match `:BODY]` (the `:([^\]]+)\]` tail of the date regex) at the head of
`s`: a colon, one or more non-`]` characters taken greedily, then `]`.
Returns the number of characters consumed and the body. -/
def matchColonBody (s : List Char) : Option (Nat × List Char) :=
  match s with
  | ':' :: rest =>
    let body := rest.takeWhile (fun c => c ≠ ']')
    if body.length = 0 then none
    else
      match rest.drop body.length with
      | ']' :: _ => some (1 + body.length + 1, body)
      | _ => none
  | _ => none

/-- Match one alternative `\[KW:([^\]]+)\]` with `rest` the text after the
opening bracket. -/
def matchBracketKw (kw rest : List Char) : Option (Nat × List Char) :=
  match matchKeywordCI kw rest with
  | some rest2 => (matchColonBody rest2).map fun r => (1 + kw.length + r.1, r.2)
  | none => none

/-- Match the whole regex `(?i)\[(date|d):([^\]]+)\]` anchored at the head of
`s`, with the regex crate's leftmost-first alternation (`date` is tried
before `d`).  Returns the match length (in characters) and the body. -/
def matchDateAt (s : List Char) : Option (Nat × List Char) :=
  match s with
  | '[' :: rest =>
    match matchBracketKw (str "date") rest with
    | some r => some r
    | none => matchBracketKw (str "d") rest
  | _ => none

/-- First (leftmost) match of the date-directive regex in `s`: start
position, length, and captured body.  Positions are character indices; the
regex match boundaries always fall on character boundaries, so the source's
byte-indexed excision is faithfully modelled by `take`/`drop` at these
indices. -/
def findDateDirective : List Char → Option (Nat × Nat × List Char)
  | [] => none
  | c :: t =>
    match matchDateAt (c :: t) with
    | some (len, body) => some (0, len, body)
    | none => (findDateDirective t).map fun r => (r.1 + 1, r.2.1, r.2.2)

/-- Model of `parse_date` (`date_parser.rs` lines 50-72).  The ambient
`Local::now().date_naive()` is the explicit parameter `today`. -/
def parse_date (input : List Char) (today : Int) : List Char × Option Int :=
  let input := trimChars input
  match findDateDirective input with
  | some (start, len, body) =>
    let date_str := toLowercase (trimChars body)
    match try_parse_date date_str today with
    | some date =>
      (collapseWs (input.take start ++ input.drop (start + len)), some date)
    | none => (input, none)
  | none => (input, none)

/-- Composition exercised by the callers: `parse_priority` then `parse_date`
on the remaining text (`none` when `parse_priority` panics). -/
def chainPD (input : List Char) (today : Int) :
    Option (List Char × Priority × Option Int) :=
  (parse_priority input).map fun tp =>
    let td := parse_date tp.1 today
    (td.1, tp.2, td.2)

/-- The reverse composition: `parse_date` first, then `parse_priority` on
its remaining text. -/
def chainDP (input : List Char) (today : Int) :
    Option (List Char × Priority × Option Int) :=
  let td := parse_date input today
  (parse_priority td.1).map fun tp => (tp.1, tp.2, td.2)

/-! ## Task store (`src/todo.rs`) -/

/-- Scalar fields of a `Todo` (`todo.rs` lines 33-46); the recursive
`subtasks` field lives in the `Todo` inductive below. -/
structure TodoData where
  id : List Char
  text : List Char
  completed : Bool
  due_date : Option Int
  created_at : Int
  priority : Priority
  is_section : Bool
deriving DecidableEq

/-- A task: scalar data plus the ordered list of child tasks. -/
inductive Todo where
  | mk : TodoData → List Todo → Todo

/-- Scalar data of a task. -/
def Todo.data : Todo → TodoData
  | .mk d _ => d

/-- Child list of a task. -/
def Todo.subtasks : Todo → List Todo
  | .mk _ c => c

/-- Model of `Todo::toggle`. -/
def Todo.toggleCompleted : Todo → Todo
  | .mk d c => .mk { d with completed := !d.completed } c

/-- Model of `Todo::has_subtasks`. -/
def Todo.hasSubtasks (t : Todo) : Bool := !t.subtasks.isEmpty

/-- Replacement of the child list. -/
def Todo.withSubtasks : Todo → List Todo → Todo
  | .mk d _, c => .mk d c

/-- Placeholder task (never reachable through a resolving path). -/
def dummyTodo : Todo := .mk ⟨[], [], false, none, 0, Priority.None, false⟩ []

/-- Model of `Priority::sort_order` (`todo.rs` lines 20-31). -/
def Priority.sort_order : Priority → Nat
  | .Max => 0
  | .High => 1
  | .Medium => 2
  | .Low => 3
  | .None => 4

/-- One flattened display row (`FlatTodo`, `todo.rs` lines 85-92). -/
structure FlatTodo where
  todo : Todo
  depth : Nat
  path : List Nat
  has_subtasks : Bool
  is_folded : Bool

/-- The store (`TodoList`, `todo.rs` lines 94-101).  The session-local
`HashSet<String>` of folded ids is embedded as a `Finset`.  `save` writes
the whole store to disk; the write itself is outside the model, so the
ghost counter `save_count` records how many times `save` has been
invoked. -/
structure TodoList where
  todos : List Todo
  cluster_name : List Char
  folded_ids : Finset (List Char)
  save_count : Nat

/-- Model of `TodoList::save`: one synchronous whole-store write. -/
def TodoList.save (l : TodoList) : TodoList :=
  { l with save_count := l.save_count + 1 }

/-- Model of `TodoList::toggle_fold` (lines 161-167): unconditional set
toggle, no persistence. -/
def TodoList.toggle_fold (l : TodoList) (id : List Char) : TodoList :=
  if id ∈ l.folded_ids then { l with folded_ids := l.folded_ids.erase id }
  else { l with folded_ids := insert id l.folded_ids }

/-- Model of `TodoList::is_folded`. -/
def TodoList.is_folded (l : TodoList) (id : List Char) : Bool :=
  id ∈ l.folded_ids

/-- Walk of an index chain below a sibling list: the common core of
`get_at_path` and `get_mut_at_path` (lines 205-226); the empty path
resolves to nothing. -/
def getAt (ts : List Todo) : List Nat → Option Todo
  | [] => none
  | [i] => ts[i]?
  | i :: rest =>
    match ts[i]? with
    | some t => getAt t.subtasks rest
    | none => none

/-- Model of `get_at_path` / `get_mut_at_path` resolution on a store. -/
def TodoList.get_at_path (l : TodoList) (path : List Nat) : Option Todo :=
  getAt l.todos path

/-- Functional counterpart of mutation through `get_mut_at_path`: apply `f`
to the task at `path`, rebuilding the spine; `none` exactly when the path
does not resolve. -/
def modifyAt (ts : List Todo) : List Nat → (Todo → Todo) → Option (List Todo)
  | [], _ => none
  | [i], f =>
    match ts[i]? with
    | some t => some (ts.set i (f t))
    | none => none
  | i :: rest, f =>
    match ts[i]? with
    | some t => (modifyAt t.subtasks rest f).map fun sub => ts.set i (t.withSubtasks sub)
    | none => none

/-- Read half of `get_parent_list_mut` (lines 229-241): the sibling list
containing the addressed slot together with the index in it.  For a
length-one path this is the top-level list; otherwise the parent is
resolved by `get_at_path` and may fail. -/
def getParentList (l : TodoList) (path : List Nat) : Option (List Todo × Nat) :=
  match path with
  | [] => none
  | [i] => some (l.todos, i)
  | _ :: _ :: _ =>
    match l.get_at_path path.dropLast with
    | some parent => some (parent.subtasks, path.getLastD 0)
    | none => none

/-- Write half of `get_parent_list_mut`: store the sibling list back.  (In
Rust the pair is a mutable borrow; reading and writing it back is the
functional equivalent.)  Writing through an unresolvable path leaves the
store unchanged; the operations below only write after a successful
read. -/
def setParentList (l : TodoList) (path : List Nat) (new : List Todo) : TodoList :=
  match path with
  | [] => l
  | [_] => { l with todos := new }
  | _ :: _ :: _ =>
    { l with todos :=
        (modifyAt l.todos path.dropLast fun t => t.withSubtasks new).getD l.todos }

/-- Model of `TodoList::add` (lines 243-246). -/
def TodoList.add (l : TodoList) (todo : Todo) : TodoList :=
  TodoList.save { l with todos := l.todos ++ [todo] }

/-- Model of `TodoList::add_subtask` (lines 248-253). -/
def TodoList.add_subtask (l : TodoList) (path : List Nat) (subtask : Todo) : TodoList :=
  match modifyAt l.todos path (fun t => t.withSubtasks (t.subtasks ++ [subtask])) with
  | some ts => TodoList.save { l with todos := ts }
  | none => l

/-- Model of `TodoList::update_at_path` (lines 255-268). -/
def TodoList.update_at_path (l : TodoList) (path : List Nat) (text : List Char)
    (due_date : Option Int) (priority : Priority) : TodoList :=
  match modifyAt l.todos path
      (fun t => Todo.mk
        { t.data with
            text := text
            due_date := due_date
            priority := priority } t.subtasks) with
  | some ts => TodoList.save { l with todos := ts }
  | none => l

/-- Model of `TodoList::remove_at_path` (lines 270-277). -/
def TodoList.remove_at_path (l : TodoList) (path : List Nat) : TodoList :=
  match getParentList l path with
  | some (list, idx) =>
    if idx < list.length then TodoList.save (setParentList l path (list.eraseIdx idx))
    else l
  | none => l

/-- Model of `TodoList::toggle_at_path` (lines 279-302).  The source
toggles through `get_mut_at_path`, reads the new `completed` flag, splices
the task to the end of its sibling list when it became completed, and saves
unconditionally once the path resolved. -/
def TodoList.toggle_at_path (l : TodoList) (path : List Nat) :
    TodoList × Option Nat :=
  match getAt l.todos path with
  | none => (l, none)
  | some t =>
    let l1 : TodoList :=
      { l with todos := (modifyAt l.todos path Todo.toggleCompleted).getD l.todos }
    let is_completed := !t.data.completed
    let res :=
      if is_completed then
        match getParentList l1 path with
        | some (list, idx) =>
          -- `Vec::remove(idx)` then `push`: idx is in range because the
          -- path resolved above.
          let task := list.getD idx dummyTodo
          let newList := list.eraseIdx idx ++ [task]
          (setParentList l1 path newList, some (newList.length - 1))
        | none => (l1, none)
      else (l1, none)
    (TodoList.save res.1, res.2)

/-- Model of `TodoList::move_up` (lines 304-313). -/
def TodoList.move_up (l : TodoList) (path : List Nat) : TodoList × Bool :=
  match getParentList l path with
  | some (list, idx) =>
    if 0 < idx ∧ idx < list.length then
      (TodoList.save (setParentList l path
        ((list.set idx (list.getD (idx - 1) dummyTodo)).set (idx - 1)
          (list.getD idx dummyTodo))), true)
    else (l, false)
  | none => (l, false)

/-- Model of `TodoList::move_down` (lines 315-324). -/
def TodoList.move_down (l : TodoList) (path : List Nat) : TodoList × Bool :=
  match getParentList l path with
  | some (list, idx) =>
    if idx + 1 < list.length then
      (TodoList.save (setParentList l path
        ((list.set idx (list.getD (idx + 1) dummyTodo)).set (idx + 1)
          (list.getD idx dummyTodo))), true)
    else (l, false)
  | none => (l, false)

/-! ## Flatten (`todo.rs` lines 174-202) -/

mutual

/-- Model of `flatten_recursive` (lines 182-202).  The `&mut Vec`
accumulator is modelled by returning the rows pushed, in push order: the
node's own row first, then - only when the node is not folded - the rows
of its children in order. -/
def flattenTodo (l : TodoList) : Todo → Nat → List Nat → List FlatTodo
  | .mk d subs, depth, path =>
    { todo := .mk d subs, depth := depth, path := path,
      has_subtasks := (Todo.mk d subs).hasSubtasks,
      is_folded := l.is_folded d.id } ::
      (if l.is_folded d.id then [] else flattenChildren l subs (depth + 1) path 0)
termination_by t _ _ => sizeOf t

/-- The loop over `subtasks.iter().enumerate()` inside `flatten_recursive`
(and over `todos.iter().enumerate()` in `flatten`): child `i` extends the
parent path with its own index. -/
def flattenChildren (l : TodoList) : List Todo → Nat → List Nat → Nat → List FlatTodo
  | [], _, _, _ => []
  | t :: rest, depth, path, i =>
    flattenTodo l t depth (path ++ [i]) ++ flattenChildren l rest depth path (i + 1)
termination_by ts _ _ _ => sizeOf ts

end

/-- Model of `TodoList::flatten` (lines 174-180). -/
def TodoList.flatten (l : TodoList) : List FlatTodo :=
  flattenChildren l l.todos 0 [] 0

/-! ## Sort (`todo.rs` lines 338-383) -/

/-- Case-insensitive lexicographic comparison of two embedded strings:
Rust's `String::cmp` on the lowercased texts (UTF-8 byte order coincides
with code-point order). -/
def lexCmp : List Char → List Char → Ordering
  | [], [] => .eq
  | [], _ :: _ => .lt
  | _ :: _, [] => .gt
  | a :: as', b :: bs' =>
    match compare a.val b.val with
    | .eq => lexCmp as' bs'
    | o => o

/-- The comparator closure of `sort_todos` (lines 352-382): sections after
non-sections, completed after incomplete, priority rank ascending, due date
ascending with `None` last, then case-insensitive text. -/
def todoCmp (a b : Todo) : Ordering :=
  if a.data.is_section ≠ b.data.is_section then
    compare a.data.is_section b.data.is_section
  else if a.data.completed ≠ b.data.completed then
    compare a.data.completed b.data.completed
  else
    let priority_cmp := compare a.data.priority.sort_order b.data.priority.sort_order
    if priority_cmp ≠ .eq then priority_cmp
    else
      let date_cmp :=
        match a.data.due_date, b.data.due_date with
        | some da, some db => compare da db
        | some _, none => Ordering.lt
        | none, some _ => Ordering.gt
        | none, none => Ordering.eq
      if date_cmp ≠ .eq then date_cmp
      else lexCmp (toLowercase a.data.text) (toLowercase b.data.text)

/-- The non-strict order induced by the comparator: `sort_by` produces a
sequence in which no earlier element compares `Greater` to a later one. -/
def todoLe (a b : Todo) : Bool :=
  match todoCmp a b with
  | .gt => false
  | _ => true

mutual

/-- Model of the recursive part of `sort_todos` (lines 343-383) seen from
one task: each task's subtree is sorted recursively, then its own child
level is sorted by the comparator.  (Sorting the empty child list of a
leaf is the identity, so the source's `!subtasks.is_empty()` guard needs
no separate case.)  `Vec::sort_by` is a stable sort, modelled by
`List.mergeSort`. -/
def sortTodoDeep : Todo → Todo
  | .mk d subs => .mk d ((sortEachChild subs).mergeSort todoLe)
termination_by t => sizeOf t

/-- The recursion of `sort_todos` over every member of a sibling list. -/
def sortEachChild : List Todo → List Todo
  | [] => []
  | t :: ts => sortTodoDeep t :: sortEachChild ts
termination_by ts => sizeOf ts

end

/-- Model of `sort_todos` applied to a sibling list. -/
def sort_todos (ts : List Todo) : List Todo := (sortEachChild ts).mergeSort todoLe

/-- Model of `TodoList::sort` (lines 338-341). -/
def TodoList.sort (l : TodoList) : TodoList :=
  TodoList.save { l with todos := sort_todos l.todos }

/-! ## Vocabulary used by the theorem statements -/

/-- Occurrence of `pat` as a contiguous substring of `s`. -/
def Occurs (pat s : List Char) : Prop := ∃ a b, s = a ++ pat ++ b

/-- Every character is ASCII.  On such inputs byte indices and character
indices coincide and `to_lowercase` maps characters one-to-one. -/
def allAscii (s : List Char) : Bool := s.all fun c => c.toNat < 128

/-- Path `q` is a prefix (ancestor-or-self position) of path `p`. -/
def PathPrefixOf (q p : List Nat) : Prop := ∃ r, q ++ r = p

/-- Every sibling list of the forest, at every depth, is sorted with
respect to the comparator-induced order `todoLe`. -/
inductive AllSorted : List Todo → Prop where
  | intro (ts : List Todo)
      (hp : List.Pairwise (fun a b => todoLe a b = true) ts)
      (hc : ∀ t, t ∈ ts → AllSorted t.subtasks) : AllSorted ts

/-- The final tiebreak of the comparator, as a standalone comparator. -/
def textCmpLower (a b : Todo) : Ordering :=
  lexCmp (toLowercase a.data.text) (toLowercase b.data.text)

/-- Lexicographic (then-chained) form of `todoCmp`, used to derive its
order-theoretic properties; `todoCmp_eq_todoCmpLex` proves it equal to the
comparator translated from the source. -/
def todoCmpLex : Todo → Todo → Ordering :=
  compareLex (compareOn fun t => t.data.is_section)
    (compareLex (compareOn fun t => t.data.completed)
      (compareLex (compareOn fun t => t.data.priority.sort_order)
        (compareLex (compareOn fun t => t.data.due_date.isNone)
          (compareLex (compareOn fun t => t.data.due_date.getD 0) textCmpLower))))

/-- Concrete task constructor shared by the witnesses below. -/
def sampleTodo (id text : String) (completed : Bool) (subs : List Todo) : Todo :=
  Todo.mk ⟨str id, str text, completed, none, 0, Priority.None, false⟩ subs

/-- Concrete store used by the witnesses: a parent with two children plus a
second top-level task. -/
def sampleStore : TodoList :=
  ⟨[sampleTodo "a" "parent" false
      [sampleTodo "b" "child one" false [], sampleTodo "c" "child two" false []],
    sampleTodo "d" "second" false []], str "w", ∅, 0⟩

/-! ## C10: `parse_priority` can panic on non-ASCII input -/

/-- Claim C10 asserts that `parse_priority` returns normally on every input
because the marker position found in the lowercased copy is always a valid
byte index into the original text.  The code violates this: lowercasing
`İ` (U+0130) expands one 2-byte character to three bytes, so on
`"İ[p:low]"` the marker is found at byte 3 of the lowercased copy while
the original text has only 9 bytes; the slice `&text[10..]` panics.  The
model evaluates to `none` (= panic) at that input. -/
theorem parse_priority_panics_on_dotted_capital_i :
    parse_priority (str "İ[p:low]") = none := by decide

/-! ## C1: priority precedence -/

/-- Counterexample to claim C1: the candidate markers are checked with all
full forms before all short forms, not purely by level.  On
`"[p:max] [priority:low]"` a max-level marker is present, yet the full-form
low marker wins and `Low` is returned. -/
theorem parse_priority_precedence_cex :
    parse_priority (str "[p:max] [priority:low]") = some (str "[p:max]", Priority.Low)
    ∧ Occurs (str "[p:max]") (toLowercase (str "[p:max] [priority:low]"))
    ∧ Priority.Low ≠ Priority.Max :=
  ⟨by decide, ⟨[], str " [priority:low]", by decide⟩, by decide⟩

/-! ## C3: weekday resolution tie-breaks -/

/-- Counterexample to claim C3: `next WEEKDAY` is not always at least one
full week ahead.  Day 1 (1970-01-02) was a Friday; `next monday` resolves
three days later, because `next_weekday` adds the extra week only once even
when the raw delta is already non-positive. -/
theorem next_weekday_full_week_cex :
    weekdayNumFromMonday 1 = Weekday.fri.numFromMonday
    ∧ next_weekday 1 Weekday.mon true = 1 + 3
    ∧ ¬ (7 : Int) ≤ (1 + 3) - 1 := by decide

/-! ## C2: failure of `parse_date` keeps the text, but trimmed -/

/-- Counterexample to claim C2: when no directive is excised the text is
not returned completely unchanged - `parse_date` trims leading and
trailing whitespace unconditionally before matching. -/
theorem parse_date_unchanged_cex :
    parse_date (str " x") 0 = (str "x", none) ∧ str "x" ≠ str " x" := by decide

/-! ## C9: chaining the two parsers is not order-independent -/

/-- Counterexample to claim C9: on `"[p:high[d:today]]"` excising the date
bracket splices the surrounding characters into a priority marker, so the
two orders disagree in all three components (remaining text, priority and
even which priority is found). -/
theorem chain_order_cex :
    chainPD (str "[p:high[d:today]]") 0 = some (str "[p:high]", Priority.None, some 0)
    ∧ chainDP (str "[p:high[d:today]]") 0 = some ([], Priority.High, some 0)
    ∧ chainPD (str "[p:high[d:today]]") 0 ≠ chainDP (str "[p:high[d:today]]") 0 := by
  refine ⟨by decide, by decide, ?_⟩
  intro h
  rw [show chainPD (str "[p:high[d:today]]") 0 = some (str "[p:high]", Priority.None, some 0) from by decide,
      show chainDP (str "[p:high[d:today]]") 0 = some ([], Priority.High, some 0) from by decide] at h
  simp at h

/-- Claim C3 amended: `next WEEKDAY` resolves to
`today + 7 + (W - today's weekday)` (Monday = 0 numbering) - the target
weekday's slot one week after this week's slot.  This is at least one full
week ahead exactly when the target weekday is not earlier in the week than
today's (in particular exactly one week when they coincide), but only 1-6
days ahead when the target falls earlier in the week.  The bare form is the
next occurrence strictly after today (the unique such day within the
following seven): the non-positive raw delta advances by one week, which
in particular skips today itself when the weekdays coincide.  The last two
conjuncts show the directive bodies `next mon` / `mon` wired through
`try_parse_date` to these two resolutions. -/
theorem next_weekday_tie_breaks (fromDay : Int) (target : Weekday) :
    next_weekday fromDay target true
        = fromDay + 7 + (target.numFromMonday - weekdayNumFromMonday fromDay)
    ∧ weekdayNumFromMonday (next_weekday fromDay target true) = target.numFromMonday
    ∧ (weekdayNumFromMonday fromDay ≤ target.numFromMonday
        ↔ fromDay + 7 ≤ next_weekday fromDay target true)
    ∧ weekdayNumFromMonday (next_weekday fromDay target false) = target.numFromMonday
    ∧ fromDay < next_weekday fromDay target false
    ∧ next_weekday fromDay target false ≤ fromDay + 7
    ∧ (∀ today : Int,
        try_parse_date (str "next mon") today = some (next_weekday today .mon true))
    ∧ (∀ today : Int,
        try_parse_date (str "mon") today = some (next_weekday today .mon false)) := by
  refine ⟨?_, ?_, ?_, ?_, ?_, ?_, fun _ => rfl, fun _ => rfl⟩ <;>
    cases target <;>
    simp only [next_weekday, Weekday.numFromMonday, weekdayNumFromMonday,
      Bool.or_true, Bool.or_false, if_true, decide_eq_true_eq] <;>
    omega

/-! ## String lemmas -/

/-- Occurrence in the empty string forces an empty pattern. -/
theorem occurs_nil_iff (pat : List Char) : Occurs pat [] ↔ pat = [] := by
  constructor
  · rintro ⟨a, b, h⟩
    rcases List.append_eq_nil.mp h.symm with ⟨h1, -⟩
    exact (List.append_eq_nil.mp h1).2
  · rintro rfl
    exact ⟨[], [], rfl⟩

/-- Occurrence in a cons: at the head or in the tail. -/
theorem occurs_cons_iff (pat : List Char) (c : Char) (t : List Char) :
    Occurs pat (c :: t) ↔ pat <+: (c :: t) ∨ Occurs pat t := by
  constructor
  · rintro ⟨a, b, h⟩
    cases a with
    | nil =>
      left
      exact ⟨b, by simpa using h.symm⟩
    | cons x a' =>
      right
      rcases List.cons.injEq .. ▸ h with ⟨-, h2⟩
      exact ⟨a', b, h2⟩
  · rintro (⟨r, hr⟩ | ⟨a, b, h⟩)
    · exact ⟨[], r, by simp [hr]⟩
    · exact ⟨c :: a, b, by simp [h]⟩

/-- The search fails exactly when the pattern does not occur. -/
theorem findSubIdx_eq_none_iff (pat s : List Char) :
    findSubIdx pat s = none ↔ ¬ Occurs pat s := by
  induction s with
  | nil =>
    rw [occurs_nil_iff]
    simp only [findSubIdx]
    by_cases h : pat.isPrefixOf [] = true
    · rw [List.isPrefixOf_iff_prefix, List.prefix_nil] at h
      simp [h, List.isPrefixOf_iff_prefix, List.prefix_nil]
    · have h2 : pat ≠ [] := by
        intro he
        exact h (by simp [he, List.isPrefixOf_iff_prefix])
      simp [h, h2]
  | cons c t ih =>
    rw [occurs_cons_iff]
    simp only [findSubIdx]
    by_cases h : pat.isPrefixOf (c :: t) = true
    · rw [if_pos h]
      rw [List.isPrefixOf_iff_prefix] at h
      simp [h]
    · rw [if_neg h]
      rw [List.isPrefixOf_iff_prefix] at h
      rw [Option.map_eq_none', ih]
      constructor
      · intro hno hor
        rcases hor with hor | hor
        · exact h hor
        · exact hno hor
      · intro hno hocc
        exact hno (Or.inr hocc)

/-- Characterisation of a successful search: the pattern sits at index `k`,
fits inside `s`, and occurs at no earlier index. -/
theorem findSubIdx_some_spec (pat : List Char) (s : List Char) (k : Nat)
    (h : findSubIdx pat s = some k) :
    pat <+: s.drop k ∧ k + pat.length ≤ s.length
      ∧ ∀ j, j < k → ¬ pat <+: s.drop j := by
  induction s generalizing k with
  | nil =>
    simp only [findSubIdx] at h
    by_cases hp : pat.isPrefixOf [] = true
    · rw [if_pos hp] at h
      rcases Option.some.injEq .. ▸ h with rfl
      rw [List.isPrefixOf_iff_prefix, List.prefix_nil] at hp
      refine ⟨by simp [hp], by simp [hp], ?_⟩
      intro j hj
      omega
    · rw [if_neg hp] at h
      exact absurd h (by simp)
  | cons c t ih =>
    simp only [findSubIdx] at h
    by_cases hp : pat.isPrefixOf (c :: t) = true
    · rw [if_pos hp] at h
      rcases Option.some.injEq .. ▸ h with rfl
      rw [List.isPrefixOf_iff_prefix] at hp
      refine ⟨by simpa using hp, ?_, ?_⟩
      · simpa using hp.length_le
      · intro j hj
        omega
    · rw [if_neg hp] at h
      rcases Option.map_eq_some'.mp h with ⟨k', hk', rfl⟩
      rcases ih k' hk' with ⟨hpre, hlen, hmin⟩
      rw [List.isPrefixOf_iff_prefix] at hp
      refine ⟨by simpa using hpre, by simp; omega, ?_⟩
      intro j hj
      cases j with
      | zero => simpa using hp
      | succ j' =>
        have := hmin j' (by omega)
        simpa using this

/-- An ASCII character is one UTF-8 byte. -/
theorem utf8Size_of_ascii (c : Char) (h : c.toNat < 128) : c.utf8Size = 1 := by
  have h1 : c.val ≤ UInt32.ofNatCore 127 (by norm_num) := by
    rw [UInt32.le_def, BitVec.le_def]
    have hx : c.val.toBitVec.toNat = c.toNat := rfl
    rw [hx]
    norm_num [UInt32.ofNatCore]
    omega
  unfold Char.utf8Size
  rw [if_pos h1]

/-- Lowercasing keeps ASCII characters in the ASCII range. -/
theorem toLower_ascii (c : Char) (h : c.toNat < 128) : (c.toLower).toNat < 128 := by
  unfold Char.toLower
  simp only []
  by_cases hr : c.toNat ≥ 65 ∧ c.toNat ≤ 90
  · rw [if_pos hr]
    have hv : (c.toNat + 32).isValidChar := by
      unfold Nat.isValidChar
      left
      omega
    have h2 : (Char.ofNat (c.toNat + 32)).toNat = c.toNat + 32 := by
      rw [Char.ofNat, dif_pos hv]
      rw [Char.ofNatAux]
      simp [Char.toNat, UInt32.toNat, UInt32.ofNat']
    omega
  · rw [if_neg hr]
    exact h

/-- On an ASCII character `char::to_lowercase` yields the single ASCII
lowercase character (the special dotted-I expansion needs a non-ASCII
input). -/
theorem charLowerRust_ascii (c : Char) (h : c.toNat < 128) :
    charLowerRust c = [c.toLower] := by
  unfold charLowerRust
  rw [if_neg]
  intro he
  rw [he] at h
  exact absurd h (by decide)

/-- On ASCII text, `to_lowercase` is the character-wise map. -/
theorem toLowercase_ascii (s : List Char) (h : allAscii s = true) :
    toLowercase s = s.map Char.toLower := by
  induction s with
  | nil => rfl
  | cons c t ih =>
    rw [allAscii, List.all_cons, Bool.and_eq_true] at h
    rcases h with ⟨h1, h2⟩
    rw [toLowercase, List.flatMap_cons, charLowerRust_ascii c (by simpa using h1)]
    rw [List.map_cons, List.singleton_append]
    exact congrArg (c.toLower :: ·) (ih h2)

/-- Lowercased ASCII text is still ASCII. -/
theorem allAscii_toLowercase (s : List Char) (h : allAscii s = true) :
    allAscii (toLowercase s) = true := by
  rw [toLowercase_ascii s h]
  rw [allAscii, List.all_eq_true] at h ⊢
  intro x hx
  rcases List.mem_map.mp hx with ⟨c, hc, rfl⟩
  simpa using toLower_ascii c (by simpa using h c hc)

/-- ASCII text has as many bytes as characters. -/
theorem byteLen_ascii (s : List Char) (h : allAscii s = true) :
    byteLen s = s.length := by
  induction s with
  | nil => rfl
  | cons c t ih =>
    rw [allAscii, List.all_cons, Bool.and_eq_true] at h
    rcases h with ⟨h1, h2⟩
    rw [byteLen, List.map_cons, List.sum_cons, utf8Size_of_ascii c (by simpa using h1)]
    rw [byteLen] at ih
    rw [ih h2, List.length_cons]
    omega

/-- On ASCII text the byte slice `&s[..n]` is the character-wise `take`. -/
theorem takeBytes_ascii (s : List Char) (h : allAscii s = true) (n : Nat)
    (hn : n ≤ s.length) : takeBytes s n = some (s.take n) := by
  induction s generalizing n with
  | nil =>
    cases n with
    | zero => rfl
    | succ m => exact absurd hn (by simp)
  | cons c t ih =>
    rw [allAscii, List.all_cons, Bool.and_eq_true] at h
    rcases h with ⟨h1, h2⟩
    cases n with
    | zero => rfl
    | succ m =>
      have hs : c.utf8Size = 1 := utf8Size_of_ascii c (by simpa using h1)
      simp only [takeBytes, hs]
      rw [if_pos (by omega)]
      have : m + 1 - 1 = m := by omega
      rw [this, ih h2 m (by simpa using hn)]
      rfl

/-- On ASCII text the byte slice `&s[n..]` is the character-wise `drop`. -/
theorem dropBytes_ascii (s : List Char) (h : allAscii s = true) (n : Nat)
    (hn : n ≤ s.length) : dropBytes s n = some (s.drop n) := by
  induction s generalizing n with
  | nil =>
    cases n with
    | zero => rfl
    | succ m => exact absurd hn (by simp)
  | cons c t ih =>
    rw [allAscii, List.all_cons, Bool.and_eq_true] at h
    rcases h with ⟨h1, h2⟩
    cases n with
    | zero => rfl
    | succ m =>
      have hs : c.utf8Size = 1 := utf8Size_of_ascii c (by simpa using h1)
      simp only [dropBytes, hs]
      rw [if_pos (by omega)]
      have : m + 1 - 1 = m := by omega
      rw [this, ih h2 m (by simpa using hn)]
      rfl

/-- On ASCII text the byte length of a character prefix is its character
count. -/
theorem byteLen_take_ascii (s : List Char) (h : allAscii s = true) (n : Nat)
    (hn : n ≤ s.length) : byteLen (s.take n) = n := by
  have hall : allAscii (s.take n) = true := by
    rw [allAscii, List.all_eq_true] at h ⊢
    intro x hx
    exact h x (List.mem_of_mem_take hx)
  rw [byteLen_ascii _ hall, List.length_take]
  omega

/-- When no candidate occurs, the scan returns the text unchanged with
priority `None`. -/
theorem parsePriorityGo_none (text lower : List Char)
    (pats : List (List Char × Priority))
    (h : ∀ q ∈ pats, findSubIdx q.1 lower = none) :
    parsePriorityGo text lower pats = some (text, Priority.None) := by
  induction pats with
  | nil => rfl
  | cons q rest ih =>
    obtain ⟨m, p⟩ := q
    have hm : findSubIdx m lower = none := by simpa using h (m, p) (by simp)
    simp only [parsePriorityGo, findBytePos, hm, Option.map_none']
    exact ih fun q hq => h q (by simp [hq])

/-- A hit on the head candidate of the scan, on ASCII input: the marker is
excised at the character positions found in the lowercased copy. -/
theorem parsePriorityGo_hit (text lower : List Char) (hA : allAscii text = true)
    (hlow : lower = toLowercase text) (m : List Char) (p : Priority)
    (hm : allAscii m = true) (rest : List (List Char × Priority))
    (k : Nat) (hk : findSubIdx m lower = some k) :
    parsePriorityGo text lower ((m, p) :: rest)
      = some (collapseWs (text.take k ++ text.drop (k + m.length)), p) := by
  have hAl : allAscii lower = true := hlow ▸ allAscii_toLowercase text hA
  have hlen : lower.length = text.length := by
    rw [hlow, toLowercase_ascii text hA]
    simp
  obtain ⟨hpre, hbound, -⟩ := findSubIdx_some_spec m lower k hk
  have hfb : findBytePos m lower = some k := by
    rw [findBytePos, hk, Option.map_some']
    rw [byteLen_take_ascii lower hAl k (by omega)]
  have hbm : byteLen m = m.length := byteLen_ascii m hm
  simp only [parsePriorityGo, hfb, hbm]
  rw [takeBytes_ascii text hA k (by omega),
    dropBytes_ascii text hA (k + m.length) (by omega)]

/-- The scan returns the first candidate (in list order) that occurs. -/
theorem parsePriorityGo_first (text lower : List Char) (hA : allAscii text = true)
    (hlow : lower = toLowercase text) (pats : List (List Char × Priority))
    (hpm : ∀ q ∈ pats, allAscii q.1 = true)
    (i : Nat) (hi : i < pats.length)
    (hocc : Occurs (pats.get ⟨i, hi⟩).1 lower)
    (hfirst : ∀ j (hj : j < i),
      findSubIdx (pats.get ⟨j, Nat.lt_trans hj hi⟩).1 lower = none) :
    ∃ k, findSubIdx (pats.get ⟨i, hi⟩).1 lower = some k
      ∧ parsePriorityGo text lower pats
          = some (collapseWs (text.take k
              ++ text.drop (k + (pats.get ⟨i, hi⟩).1.length)), (pats.get ⟨i, hi⟩).2) := by
  induction pats generalizing i with
  | nil => exact absurd hi (by simp)
  | cons q rest ih =>
    obtain ⟨m, p⟩ := q
    cases i with
    | zero =>
      have hne : findSubIdx m lower ≠ none := by
        rw [Ne, findSubIdx_eq_none_iff]
        exact fun hno => hno hocc
      rcases Option.ne_none_iff_exists'.mp hne with ⟨k, hk⟩
      exact ⟨k, hk, parsePriorityGo_hit text lower hA hlow m p
        (by simpa using hpm (m, p) (by simp)) rest k hk⟩
    | succ j =>
      have h0 : findSubIdx m lower = none := by
        simpa using hfirst 0 (by omega)
      simp only [List.get_cons_succ] at hocc ⊢
      have step : parsePriorityGo text lower ((m, p) :: rest)
          = parsePriorityGo text lower rest := by
        simp only [parsePriorityGo, findBytePos, h0, Option.map_none']
      rw [step]
      refine ih (fun q hq => hpm q (by simp [hq])) j (by simpa using hi) hocc ?_
      intro j' hj'
      simpa using hfirst (j' + 1) (by omega)

/-- Claim C1 amended: `parse_priority` checks the candidate markers in the
fixed order full forms `[priority:max]` > `[priority:high]` >
`[priority:medium]` > `[priority:low]` followed by short forms `[p:max]` >
`[p:high]` > `[p:medium]` > `[p:low]` (so within one form levels rank
max > high > medium > low, but any full-form marker beats any short-form
one).  For ASCII input (where byte indices equal character indices) it
returns the priority of the first candidate in that order occurring
case-insensitively anywhere in the text, and excises exactly that
candidate's first occurrence, collapsing the surviving whitespace to
single spaces and trimming. -/
theorem parse_priority_first_candidate (input : List Char) (hA : allAscii input = true)
    (i : Nat) (hi : i < priorityPatterns.length)
    (hocc : Occurs (priorityPatterns.get ⟨i, hi⟩).1 (toLowercase input))
    (hfirst : ∀ j (hj : j < i),
      ¬ Occurs (priorityPatterns.get ⟨j, Nat.lt_trans hj hi⟩).1 (toLowercase input)) :
    ∃ k, findSubIdx (priorityPatterns.get ⟨i, hi⟩).1 (toLowercase input) = some k
      ∧ (priorityPatterns.get ⟨i, hi⟩).1 <+: (toLowercase input).drop k
      ∧ (∀ j, j < k → ¬ (priorityPatterns.get ⟨i, hi⟩).1 <+: (toLowercase input).drop j)
      ∧ parse_priority input
          = some (collapseWs (input.take k
              ++ input.drop (k + (priorityPatterns.get ⟨i, hi⟩).1.length)),
            (priorityPatterns.get ⟨i, hi⟩).2) := by
  have hpm : ∀ q ∈ priorityPatterns, allAscii q.1 = true := by decide
  rcases parsePriorityGo_first input (toLowercase input) hA rfl priorityPatterns hpm
      i hi hocc (fun j hj => (findSubIdx_eq_none_iff _ _).mpr (hfirst j hj)) with
    ⟨k, hk, hres⟩
  obtain ⟨hpre, -, hmin⟩ := findSubIdx_some_spec _ _ k hk
  exact ⟨k, hk, hpre, hmin, hres⟩

/-- Witness for the amended claim C1: on `"Task [p:medium]"` the seventh
candidate `[p:medium]` is the first one present; the marker at index 5 is
excised and `Medium` returned. -/
theorem parse_priority_first_candidate_witness :
    allAscii (str "Task [p:medium]") = true
    ∧ (∃ k, findSubIdx (priorityPatterns.get ⟨6, by decide⟩).1
          (toLowercase (str "Task [p:medium]")) = some k
        ∧ (priorityPatterns.get ⟨6, by decide⟩).1
            <+: (toLowercase (str "Task [p:medium]")).drop k
        ∧ (∀ j, j < k → ¬ (priorityPatterns.get ⟨6, by decide⟩).1
            <+: (toLowercase (str "Task [p:medium]")).drop j)
        ∧ parse_priority (str "Task [p:medium]")
            = some (collapseWs ((str "Task [p:medium]").take k
                ++ (str "Task [p:medium]").drop
                  (k + (priorityPatterns.get ⟨6, by decide⟩).1.length)),
              (priorityPatterns.get ⟨6, by decide⟩).2)) :=
  ⟨by decide,
    parse_priority_first_candidate (str "Task [p:medium]") (by decide) 6 (by decide)
      ⟨str "task ", [], by decide⟩
      (by
        intro j hj
        interval_cases j
        · exact (findSubIdx_eq_none_iff (str "[priority:max]")
            (toLowercase (str "Task [p:medium]"))).mp (by decide)
        · exact (findSubIdx_eq_none_iff (str "[priority:high]")
            (toLowercase (str "Task [p:medium]"))).mp (by decide)
        · exact (findSubIdx_eq_none_iff (str "[priority:medium]")
            (toLowercase (str "Task [p:medium]"))).mp (by decide)
        · exact (findSubIdx_eq_none_iff (str "[priority:low]")
            (toLowercase (str "Task [p:medium]"))).mp (by decide)
        · exact (findSubIdx_eq_none_iff (str "[p:max]")
            (toLowercase (str "Task [p:medium]"))).mp (by decide)
        · exact (findSubIdx_eq_none_iff (str "[p:high]")
            (toLowercase (str "Task [p:medium]"))).mp (by decide))⟩

/-- When `parse_date` produces no date it returns the trimmed input
unchanged - both when no bracket matches and when the matched body fails
to resolve. -/
theorem parse_date_none_frame (input : List Char) (today : Int)
    (h : (parse_date input today).2 = none) :
    parse_date input today = (trimChars input, none) := by
  rcases hf : findDateDirective (trimChars input) with - | ⟨st, len, body⟩
  · simp [parse_date, hf]
  · rcases ht : try_parse_date (toLowercase (trimChars body)) today with - | d
    · simp [parse_date, hf, ht]
    · exfalso
      rw [parse_date] at h
      simp [hf, ht] at h

/-- Claim C2 amended: whenever `parse_date` excises no directive (no
bracket matches, or the first matched bracket's body fails to resolve -
including out-of-range or invalid calendar values), it returns the input
*trimmed of leading and trailing whitespace* but otherwise unchanged (the
bracket survives) together with no date; and chaining `parse_priority`
then `parse_date` on text free of both directive kinds returns the trimmed
original with priority `None` and no date. -/
theorem parse_date_failure_keeps_text (input : List Char) (today : Int) :
    ((parse_date input today).2 = none
      → parse_date input today = (trimChars input, none))
    ∧ ((∀ q ∈ priorityPatterns, findSubIdx q.1 (toLowercase input) = none)
      → findDateDirective (trimChars input) = none
      → chainPD input today = some (trimChars input, Priority.None, none)) := by
  constructor
  · exact parse_date_none_frame input today
  · intro hp hd
    have h1 : parse_priority input = some (input, Priority.None) :=
      parsePriorityGo_none input (toLowercase input) priorityPatterns hp
    have h2 : parse_date input today = (trimChars input, none) := by
      simp [parse_date, hd]
    rw [chainPD, h1, Option.map_some']
    simp [h2]

/-- Witness for the amended claim C2: the spec's own example
`"X [date:13/40]"` (invalid month) keeps its bracket, and the chained
parsers on the marker-free `" x"` return the trimmed text with
`(None, None)`. -/
theorem parse_date_failure_keeps_text_witness :
    parse_date (str "X [date:13/40]") 0 = (trimChars (str "X [date:13/40]"), none)
    ∧ chainPD (str " x") 0 = some (trimChars (str " x"), Priority.None, none) :=
  ⟨(parse_date_failure_keeps_text (str "X [date:13/40]") 0).1 (by decide),
    (parse_date_failure_keeps_text (str " x") 0).2 (by decide) (by decide)⟩

/-- Segments produced by `splitOnP` contain no separator characters. -/
theorem splitOnP_seg_no_sep (p : Char → Bool) (l : List Char) :
    ∀ w ∈ l.splitOnP p, ∀ c ∈ w, p c = false := by
  induction l with
  | nil =>
    intro w hw c hc
    rw [List.splitOnP_nil] at hw
    rcases List.mem_singleton.mp hw with rfl
    exact absurd hc (by simp)
  | cons x xs ih =>
    rw [List.splitOnP_cons]
    by_cases hx : p x = true
    · rw [if_pos hx]
      intro w hw
      rcases List.mem_cons.mp hw with rfl | hw
      · intro c hc
        exact absurd hc (by simp)
      · exact ih w hw
    · rw [if_neg hx]
      intro w hw
      rcases h0 : xs.splitOnP p with - | ⟨h, t⟩
      · exact absurd h0 (List.splitOnP_ne_nil p xs)
      · rw [h0] at hw
        simp only [List.modifyHead] at hw
        rcases List.mem_cons.mp hw with rfl | hw
        · intro c hc
          rcases List.mem_cons.mp hc with rfl | hc
          · simpa using hx
          · exact ih h (by rw [h0]; exact List.mem_cons_self ..) c hc
        · exact ih w (by rw [h0]; exact List.mem_cons_of_mem _ hw)

/-- Every word of `wsWords` is nonempty and whitespace-free. -/
theorem wsWords_words (s : List Char) :
    ∀ w ∈ wsWords s, w ≠ [] ∧ ∀ c ∈ w, isWsRust c = false := by
  intro w hw
  rw [wsWords, List.mem_filter] at hw
  rcases hw with ⟨hmem, hne⟩
  exact ⟨by simpa using hne, splitOnP_seg_no_sep isWsRust s w hmem⟩

/-- A list whose first and last characters are not whitespace is fixed by
`trim`. -/
theorem trimChars_eq_self (l : List Char)
    (h1 : ∀ c, l.head? = some c → isWsRust c = false)
    (h2 : ∀ c, l.getLast? = some c → isWsRust c = false) :
    trimChars l = l := by
  cases l with
  | nil => rfl
  | cons c t =>
    rw [trimChars]
    rw [List.dropWhile_cons, if_neg (by simp [h1 c rfl])]
    rcases hr : (c :: t).reverse with - | ⟨d, r⟩
    · exact absurd hr (by simp)
    · have hd : (c :: t).getLast? = some d := by
        rw [← List.head?_reverse, hr]
        rfl
      rw [List.dropWhile_cons, if_neg (by simp [h2 d hd])]
      rw [← hr, List.reverse_reverse]

/-- Joining nonempty whitespace-free words with single spaces yields a
trimmed string: its first and last characters are word characters. -/
theorem intercalate_ends (ws : List (List Char))
    (h : ∀ w ∈ ws, w ≠ [] ∧ ∀ c ∈ w, isWsRust c = false) :
    (∀ c, (List.intercalate [' '] ws).head? = some c → isWsRust c = false)
    ∧ (∀ c, (List.intercalate [' '] ws).getLast? = some c → isWsRust c = false) := by
  induction ws with
  | nil => exact ⟨fun c hc => absurd hc (by simp [List.intercalate]), fun c hc => absurd hc (by simp [List.intercalate])⟩
  | cons w rest ih =>
    rcases h w (List.mem_cons_self ..) with ⟨hne, hcs⟩
    cases rest with
    | nil =>
      rw [show List.intercalate [' '] [w] = w from by simp [List.intercalate]]
      constructor
      · intro c hc
        exact hcs c (List.mem_of_mem_head? hc)
      · intro c hc
        exact hcs c (List.mem_of_getLast?_eq_some hc)
    | cons x rest' =>
      have hrec := ih fun v hv => h v (List.mem_cons_of_mem _ hv)
      have hx := h x (by simp)
      have hxne : List.intercalate [' '] (x :: rest') ≠ [] := by
        intro he
        have : (List.intercalate [' '] (x :: rest')).head? = none := by simp [he]
        cases rest' with
        | nil =>
          rw [show List.intercalate [' '] [x] = x from by simp [List.intercalate]] at he
          exact hx.1 he
        | cons y rest'' =>
          rw [show List.intercalate [' '] (x :: y :: rest'')
              = x ++ [' '] ++ List.intercalate [' '] (y :: rest'') from by
            simp [List.intercalate, List.intersperse]] at he
          rcases List.append_eq_nil.mp he with ⟨he1, -⟩
          rcases List.append_eq_nil.mp he1 with ⟨he2, -⟩
          exact hx.1 he2
      rw [show List.intercalate [' '] (w :: x :: rest')
          = w ++ [' '] ++ List.intercalate [' '] (x :: rest') from by
        simp [List.intercalate, List.intersperse]]
      constructor
      · intro c hc
        rw [List.append_assoc, List.head?_append] at hc
        rcases hw0 : w.head? with - | c0
        · exact absurd (List.head?_eq_none_iff.mp hw0) hne
        · rw [hw0] at hc
          have hcc : c0 = c := by simpa [Option.or] using hc
          subst hcc
          exact hcs c0 (List.mem_of_mem_head? hw0)
      · intro c hc
        rw [List.append_assoc, List.getLast?_append, List.getLast?_append] at hc
        rcases hg : (List.intercalate [' '] (x :: rest')).getLast? with - | d
        · exact absurd (List.getLast?_eq_none_iff.mp hg) hxne
        · rw [hg] at hc
          have hcc : d = c := by simpa [Option.or] using hc
          subst hcc
          exact hrec.2 d hg

/-- Collapsed text carries no leading or trailing whitespace, so `trim`
fixes it. -/
theorem trimChars_collapseWs (s : List Char) :
    trimChars (collapseWs s) = collapseWs s := by
  rcases intercalate_ends (wsWords s) (wsWords_words s) with ⟨h1, h2⟩
  exact trimChars_eq_self _ h1 h2

/-- Shape of a successful `parse_priority` result: either the text is
returned untouched (no marker) or it has been whitespace-collapsed. -/
theorem parsePriorityGo_shape (text lower : List Char)
    (pats : List (List Char × Priority)) (t : List Char) (p : Priority)
    (h : parsePriorityGo text lower pats = some (t, p)) :
    t = text ∨ ∃ s, t = collapseWs s := by
  induction pats with
  | nil =>
    left
    simpa using congrArg (fun r => (Option.map Prod.fst r).getD []) h.symm
  | cons q rest ih =>
    obtain ⟨m, pr⟩ := q
    simp only [parsePriorityGo] at h
    rcases hf : findBytePos m lower with - | pos
    · rw [hf] at h
      exact ih h
    · rw [hf] at h
      have h2 : (match takeBytes text pos, dropBytes text (pos + byteLen m) with
          | some before, some after => some (collapseWs (before ++ after), pr)
          | _, _ => none) = some (t, p) := h
      rcases hT : takeBytes text pos with - | before
      · rw [hT] at h2
        simp at h2
      · rcases hD : dropBytes text (pos + byteLen m) with - | after
        · rw [hT, hD] at h2
          simp at h2
        · rw [hT, hD] at h2
          right
          refine ⟨before ++ after, ?_⟩
          simpa using congrArg (fun r => (Option.map Prod.fst r).getD []) h2.symm

/-- Claim C9 amended: the composition of the two parsers is
order-independent in the absence of cross-interaction - (i) whenever no
priority candidate occurs in the text or in its date-parsed remainder, and
(ii) whenever the (already trimmed) text resolves no date directive either
before or after priority parsing.  (In general order-independence fails:
excising one directive can splice the surrounding characters into a marker
of the other kind, see the counterexample.) -/
theorem chain_order_independent_cases (input : List Char) (today : Int) :
    ((∀ q ∈ priorityPatterns, findSubIdx q.1 (toLowercase input) = none)
      → (∀ q ∈ priorityPatterns,
          findSubIdx q.1 (toLowercase (parse_date input today).1) = none)
      → chainPD input today = chainDP input today)
    ∧ (∀ t1 p, trimChars input = input
      → parse_priority input = some (t1, p)
      → (parse_date input today).2 = none
      → (parse_date t1 today).2 = none
      → chainPD input today = chainDP input today) := by
  constructor
  · intro h1 h2
    have hp1 : parse_priority input = some (input, Priority.None) :=
      parsePriorityGo_none input (toLowercase input) priorityPatterns h1
    have hp2 : parse_priority (parse_date input today).1
        = some ((parse_date input today).1, Priority.None) :=
      parsePriorityGo_none _ _ priorityPatterns h2
    simp [chainPD, chainDP, hp1, hp2]
  · intro t1 p htrim hpp hd1 hd2
    have e1 : parse_date input today = (input, none) := by
      have h := parse_date_none_frame input today hd1
      rw [htrim] at h
      exact h
    have ht1 : trimChars t1 = t1 := by
      rcases parsePriorityGo_shape input (toLowercase input) priorityPatterns t1 p hpp
        with rfl | ⟨s, rfl⟩
      · exact htrim
      · exact trimChars_collapseWs s
    have e2 : parse_date t1 today = (t1, none) := by
      have h := parse_date_none_frame t1 today hd2
      rw [ht1] at h
      exact h
    simp [chainPD, chainDP, e1, e2, hpp]

/-- Witness for the amended claim C9: a pure date text commutes (case i)
and a pure priority text commutes (case ii). -/
theorem chain_order_independent_cases_witness :
    chainPD (str "a [d:today] b") 0 = chainDP (str "a [d:today] b") 0
    ∧ chainPD (str "a [p:low] b") 0 = chainDP (str "a [p:low] b") 0 :=
  ⟨(chain_order_independent_cases (str "a [d:today] b") 0).1 (by decide) (by decide),
    (chain_order_independent_cases (str "a [p:low] b") 0).2 (str "a b") Priority.Low
      (by decide) (by decide) (by decide) (by decide)⟩

/-! ## Path-resolution lemmas for the task store -/

/-- Mutation through a path succeeds exactly when resolution does. -/
theorem modifyAt_eq_none_iff (ts : List Todo) (path : List Nat) (f : Todo → Todo) :
    modifyAt ts path f = none ↔ getAt ts path = none := by
  induction path generalizing ts with
  | nil => simp [modifyAt, getAt]
  | cons i rest ih =>
    cases rest with
    | nil =>
      rcases h : ts[i]? with - | t <;> simp [modifyAt, getAt, h]
    | cons j rs =>
      rcases h : ts[i]? with - | t
      · simp [modifyAt, getAt, h]
      · simp only [modifyAt, getAt, h, Option.map_eq_none']
        exact ih t.subtasks

/-- Reading back the modified slot yields the transformed task. -/
theorem getAt_modifyAt_self (ts : List Todo) (path : List Nat) (f : Todo → Todo)
    (t : Todo) (h : getAt ts path = some t) (ts' : List Todo)
    (h2 : modifyAt ts path f = some ts') :
    getAt ts' path = some (f t) := by
  induction path generalizing ts ts' with
  | nil => simp [getAt] at h
  | cons i rest ih =>
    cases rest with
    | nil =>
      rcases hg : ts[i]? with - | u
      · simp [getAt, hg] at h
      · have hlt : i < ts.length := (List.getElem?_eq_some.mp hg).1
        simp only [getAt, hg, Option.some.injEq] at h
        subst h
        simp only [modifyAt, hg, Option.some.injEq] at h2
        subst h2
        simp [getAt, List.getElem?_set_self hlt]
    | cons j rs =>
      rcases hg : ts[i]? with - | u
      · simp [getAt, hg] at h
      · have hlt : i < ts.length := (List.getElem?_eq_some.mp hg).1
        simp only [getAt, hg] at h
        simp only [modifyAt, hg] at h2
        rcases hm : modifyAt u.subtasks (j :: rs) f with - | sub
        · rw [hm] at h2
          simp at h2
        · rw [hm] at h2
          simp only [Option.map_some', Option.some.injEq] at h2
          subst h2
          simp only [getAt, List.getElem?_set_self hlt]
          have : (u.withSubtasks sub).subtasks = sub := by
            cases u
            rfl
          rw [this]
          exact ih u.subtasks h sub hm

/-- Frame property of `modifyAt` for transformations preserving children:
every path that is not an ancestor-or-self of the modified one resolves
unchanged. -/
theorem getAt_modifyAt_frame (ts : List Todo) (path : List Nat) (f : Todo → Todo)
    (hf : ∀ x, (f x).subtasks = x.subtasks) (ts' : List Todo)
    (h2 : modifyAt ts path f = some ts') :
    ∀ q, ¬ PathPrefixOf q path → getAt ts' q = getAt ts q := by
  induction path generalizing ts ts' with
  | nil => simp [modifyAt] at h2
  | cons i rest ih =>
    intro q hq
    cases rest with
    | nil =>
      rcases hg : ts[i]? with - | u
      · simp [modifyAt, hg] at h2
      · have hlt : i < ts.length := (List.getElem?_eq_some.mp hg).1
        simp only [modifyAt, hg, Option.some.injEq] at h2
        subst h2
        cases q with
        | nil => simp [getAt]
        | cons j q' =>
          by_cases hij : j = i
          · cases q' with
            | nil =>
              exfalso
              exact hq ⟨[], by rw [hij]; rfl⟩
            | cons k q'' =>
              have hji : (ts.set i (f u))[j]? = some (f u) := by
                rw [hij]
                exact List.getElem?_set_self hlt
              have hji2 : ts[j]? = some u := by
                rw [hij]
                exact hg
              simp only [getAt, hji, hji2]
              rw [hf u]
          · have hji : (ts.set i (f u))[j]? = ts[j]? := List.getElem?_set_ne (by omega)
            cases q' with
            | nil => simpa [getAt] using hji
            | cons k q'' => simp only [getAt, hji]
    | cons j' rs =>
      rcases hg : ts[i]? with - | u
      · simp [modifyAt, hg] at h2
      · have hlt : i < ts.length := (List.getElem?_eq_some.mp hg).1
        simp only [modifyAt, hg] at h2
        rcases hm : modifyAt u.subtasks (j' :: rs) f with - | sub
        · rw [hm] at h2
          simp at h2
        · rw [hm] at h2
          simp only [Option.map_some', Option.some.injEq] at h2
          subst h2
          cases q with
          | nil => simp [getAt]
          | cons j q' =>
            by_cases hij : j = i
            · cases q' with
              | nil =>
                exfalso
                exact hq ⟨j' :: rs, by rw [hij]; rfl⟩
              | cons k q'' =>
                have hji : (ts.set i (u.withSubtasks sub))[j]? = some (u.withSubtasks sub) := by
                  rw [hij]
                  exact List.getElem?_set_self hlt
                have hji2 : ts[j]? = some u := by
                  rw [hij]
                  exact hg
                simp only [getAt, hji, hji2]
                have hsub : (u.withSubtasks sub).subtasks = sub := by
                  cases u
                  rfl
                simp only [hsub]
                refine ih u.subtasks sub hm (k :: q'') ?_
                rintro ⟨r, hr⟩
                exact hq ⟨r, by rw [hij, ← hr]; rfl⟩
            · have hji : (ts.set i (u.withSubtasks sub))[j]? = ts[j]? :=
                List.getElem?_set_ne (by omega)
              cases q' with
              | nil => simpa [getAt] using hji
              | cons k q'' => simp only [getAt, hji]

/-- Strict ancestors of a modified path keep their scalar data (only their
descendant lists change). -/
theorem getAt_modifyAt_ancestor (ts : List Todo) (path : List Nat)
    (f : Todo → Todo) (ts' : List Todo) (h2 : modifyAt ts path f = some ts') :
    ∀ q, PathPrefixOf q path → q ≠ path →
      (getAt ts' q).map Todo.data = (getAt ts q).map Todo.data := by
  induction path generalizing ts ts' with
  | nil => simp [modifyAt] at h2
  | cons i rest ih =>
    intro q hpre hne
    cases rest with
    | nil =>
      rcases hg : ts[i]? with - | u
      · simp [modifyAt, hg] at h2
      · simp only [modifyAt, hg, Option.some.injEq] at h2
        subst h2
        rcases hpre with ⟨r, hr⟩
        cases q with
        | nil => simp [getAt]
        | cons j q' =>
          exfalso
          rcases List.cons.injEq .. ▸ hr with ⟨rfl, hr2⟩
          rcases List.append_eq_nil.mp hr2 with ⟨rfl, rfl⟩
          exact hne rfl
    | cons j' rs =>
      rcases hg : ts[i]? with - | u
      · simp [modifyAt, hg] at h2
      · have hlt : i < ts.length := (List.getElem?_eq_some.mp hg).1
        simp only [modifyAt, hg] at h2
        rcases hm : modifyAt u.subtasks (j' :: rs) f with - | sub
        · rw [hm] at h2
          simp at h2
        · rw [hm] at h2
          simp only [Option.map_some', Option.some.injEq] at h2
          subst h2
          rcases hpre with ⟨r, hr⟩
          cases q with
          | nil => simp [getAt]
          | cons j q' =>
            rcases List.cons.injEq .. ▸ hr with ⟨rfl, hr2⟩
            have hji : (ts.set j (u.withSubtasks sub))[j]? = some (u.withSubtasks sub) :=
              List.getElem?_set_self hlt
            cases q' with
            | nil =>
              simp only [getAt, hji, hg, Option.map_some']
              have : (u.withSubtasks sub).data = u.data := by
                cases u
                rfl
              rw [this]
            | cons k q'' =>
              simp only [getAt, hji, hg]
              have hsub : (u.withSubtasks sub).subtasks = sub := by
                cases u
                rfl
              simp only [hsub]
              refine ih u.subtasks sub hm (k :: q'') ⟨r, hr2⟩ ?_
              intro he
              exact hne (by rw [he])

/-- Resolution through a path ending in `j`: the last step reads slot `j`
of the parent's child list. -/
theorem getAt_append_last (ts : List Todo) (p : List Nat) (j : Nat) (hne : p ≠ []) :
    getAt ts (p ++ [j]) = (getAt ts p).bind fun u => u.subtasks[j]? := by
  induction p generalizing ts with
  | nil => exact absurd rfl hne
  | cons i p' ih =>
    cases p' with
    | nil =>
      rcases hg : ts[i]? with - | u <;> simp [getAt, hg]
    | cons k p'' =>
      rcases hg : ts[i]? with - | u
      · simp [getAt, List.cons_append, hg]
      · have h1 : getAt ts ((i :: k :: p'') ++ [j])
            = getAt u.subtasks ((k :: p'') ++ [j]) := by
          simp only [List.cons_append, List.append_eq, getAt, hg]
        have h3 : getAt ts (i :: k :: p'') = getAt u.subtasks (k :: p'') := by
          simp only [getAt, hg]
        rw [h1, h3, ih u.subtasks (by simp)]

/-- Effect of a path-ending modification on the parent node: slot `j` of
the parent's child list is transformed, the rest of the parent is kept. -/
theorem modifyAt_parent_view (p : List Nat) (j : Nat) (f : Todo → Todo) :
    ∀ (ts ts' : List Todo) (t : Todo), getAt ts (p ++ [j]) = some t →
      modifyAt ts (p ++ [j]) f = some ts' →
      (p = [] → ts' = ts.set j (f t))
      ∧ (∀ parent, getAt ts p = some parent →
          getAt ts' p = some (parent.withSubtasks (parent.subtasks.set j (f t)))) := by
  induction p with
  | nil =>
    intro ts ts' t ht h2
    constructor
    · intro _
      simp only [List.nil_append, getAt] at ht
      simp only [List.nil_append, modifyAt, ht, Option.some.injEq] at h2
      exact h2.symm
    · intro parent hparent
      simp [getAt] at hparent
  | cons i p' ih =>
    intro ts ts' t ht h2
    constructor
    · intro he
      exact absurd he (by simp)
    · intro parent hparent
      cases p' with
      | nil =>
        simp only [List.cons_append, List.nil_append] at ht h2
        rcases hg : ts[i]? with - | u
        · rw [show getAt ts [i, j] = none from by simp [getAt, hg]] at ht
          exact absurd ht (by simp)
        · have hlt : i < ts.length := (List.getElem?_eq_some.mp hg).1
          have ht' : u.subtasks[j]? = some t := by
            rw [show getAt ts [i, j] = u.subtasks[j]? from by
              simp only [getAt, hg]] at ht
            exact ht
          simp only [modifyAt, hg] at h2
          rw [ht'] at h2
          simp only [Option.map_some', Option.some.injEq] at h2
          subst h2
          have hu : parent = u := by
            rw [show getAt ts [i] = ts[i]? from rfl, hg] at hparent
            exact (Option.some.injEq .. ▸ hparent).symm
          subst hu
          simp [getAt, List.getElem?_set_self hlt]
      | cons k p'' =>
        rcases hg : ts[i]? with - | u
        · rw [show getAt ts ((i :: k :: p'') ++ [j]) = none from by
            simp [List.cons_append, getAt, hg]] at ht
          exact absurd ht (by simp)
        · have hlt : i < ts.length := (List.getElem?_eq_some.mp hg).1
          have ht' : getAt u.subtasks ((k :: p'') ++ [j]) = some t := by
            rw [show getAt ts ((i :: k :: p'') ++ [j])
                = getAt u.subtasks ((k :: p'') ++ [j]) from by
              simp only [List.cons_append, List.append_eq, getAt, hg]] at ht
            exact ht
          have h2' : modifyAt ts ((i :: k :: p'') ++ [j]) f = some ts' := h2
          rw [show (i :: k :: p'') ++ [j] = i :: ((k :: p'') ++ [j]) from rfl] at h2'
          have hcons : ∃ a b, (k :: p'') ++ [j] = a :: b := ⟨k, p'' ++ [j], rfl⟩
          rcases hcons with ⟨a, b, hab⟩
          rw [hab] at h2'
          simp only [modifyAt, hg] at h2'
          rcases hm : modifyAt u.subtasks (a :: b) f with - | sub
          · rw [hm] at h2'
            simp at h2'
          · rw [hm] at h2'
            simp only [Option.map_some', Option.some.injEq] at h2'
            subst h2'
            rw [← hab] at hm
            have hparent' : getAt u.subtasks (k :: p'') = some parent := by
              rw [show getAt ts (i :: k :: p'') = getAt u.subtasks (k :: p'') from by
                simp only [getAt, hg]] at hparent
              exact hparent
            have hrec := (ih u.subtasks sub t ht' hm).2 parent hparent'
            rw [show getAt (ts.set i (u.withSubtasks sub)) (i :: k :: p'')
                = getAt (u.withSubtasks sub).subtasks (k :: p'') from by
              simp only [getAt, List.getElem?_set_self hlt]]
            have hsub : (u.withSubtasks sub).subtasks = sub := by
              cases u
              rfl
            simp only [hsub]
            exact hrec

/-- Decomposition of a length-two-or-more path into parent part and final
index. -/
theorem path_decomp (i j : Nat) (rest : List Nat) :
    (i :: j :: rest).dropLast ++ [(i :: j :: rest).getLastD 0] = i :: j :: rest
    ∧ (i :: j :: rest).dropLast ≠ [] := by
  constructor
  · rw [List.getLastD_eq_getLast?, List.getLast?_eq_getLast _ (by simp),
      Option.getD_some]
    exact List.dropLast_append_getLast (by simp)
  · simp

/-- The addressed slot seen through the parent view. -/
theorem getAt_eq_parentSlot (l : TodoList) (path : List Nat) (list : List Todo)
    (idx : Nat) (hp : getParentList l path = some (list, idx)) :
    getAt l.todos path = list[idx]? := by
  rcases path with - | ⟨i, - | ⟨j, rest⟩⟩
  · simp [getParentList] at hp
  · simp only [getParentList, Option.some.injEq, Prod.mk.injEq] at hp
    rcases hp with ⟨rfl, rfl⟩
    rfl
  · simp only [getParentList] at hp
    rcases hg : TodoList.get_at_path l (i :: j :: rest).dropLast with - | parent
    · rw [hg] at hp
      simp at hp
    · rw [hg] at hp
      simp only [Option.some.injEq, Prod.mk.injEq] at hp
      rcases hp with ⟨rfl, rfl⟩
      rcases path_decomp i j rest with ⟨hdec, hne⟩
      have hg' : getAt l.todos (i :: j :: rest).dropLast = some parent := hg
      have hx : getAt l.todos (i :: j :: rest)
          = (getAt l.todos (i :: j :: rest).dropLast).bind
            (fun u => u.subtasks[(i :: j :: rest).getLastD 0]?) := by
        conv_lhs => rw [← hdec]
        exact getAt_append_last l.todos _ _ hne
      rw [hx, hg']
      rfl

/-- A non-resolving path either has no parent view or is out of range in
it. -/
theorem getAt_none_parent_cases (l : TodoList) (path : List Nat)
    (h : getAt l.todos path = none) :
    getParentList l path = none
      ∨ ∃ list idx, getParentList l path = some (list, idx) ∧ list.length ≤ idx := by
  rcases hp : getParentList l path with - | ⟨list, idx⟩
  · exact Or.inl rfl
  · right
    refine ⟨list, idx, rfl, ?_⟩
    have := getAt_eq_parentSlot l path list idx hp
    rw [h] at this
    exact List.getElem?_eq_none_iff.mp this.symm

/-- Modifying through a resolving path updates exactly the addressed slot
of the parent view. -/
theorem getParentList_after_modify (l : TodoList) (path : List Nat)
    (f : Todo → Todo) (t : Todo) (ht : getAt l.todos path = some t)
    (ts' : List Todo) (h2 : modifyAt l.todos path f = some ts')
    (list : List Todo) (idx : Nat)
    (hp : getParentList l path = some (list, idx)) :
    getParentList { l with todos := ts' } path = some (list.set idx (f t), idx) := by
  rcases path with - | ⟨i, - | ⟨j, rest⟩⟩
  · simp [getParentList] at hp
  · simp only [getParentList, Option.some.injEq, Prod.mk.injEq] at hp
    rcases hp with ⟨rfl, rfl⟩
    have hg : l.todos[i]? = some t := ht
    simp only [modifyAt, hg, Option.some.injEq] at h2
    subst h2
    rfl
  · rcases path_decomp i j rest with ⟨hdec, hne⟩
    simp only [getParentList] at hp
    rcases hg : TodoList.get_at_path l (i :: j :: rest).dropLast with - | parent
    · rw [hg] at hp
      simp at hp
    · rw [hg] at hp
      simp only [Option.some.injEq, Prod.mk.injEq] at hp
      rcases hp with ⟨rfl, rfl⟩
      have hview := (modifyAt_parent_view (i :: j :: rest).dropLast
        ((i :: j :: rest).getLastD 0) f l.todos ts' t
        (by rw [hdec]; exact ht) (by rw [hdec]; exact h2)).2 parent hg
      simp only [getParentList, TodoList.get_at_path]
      rw [hview]
      have hsub : (parent.withSubtasks (parent.subtasks.set ((i :: j :: rest).getLastD 0)
          (f t))).subtasks = parent.subtasks.set ((i :: j :: rest).getLastD 0) (f t) := by
        cases parent
        rfl
      simp only [hsub]

/-- Writing a new sibling list back through a resolving parent view makes
that view return exactly the new list. -/
theorem getParentList_setParentList (l : TodoList) (path : List Nat)
    (list : List Todo) (idx : Nat)
    (hp : getParentList l path = some (list, idx)) (new : List Todo) :
    getParentList (setParentList l path new) path = some (new, idx) := by
  rcases path with - | ⟨i, - | ⟨j, rest⟩⟩
  · simp [getParentList] at hp
  · simp only [getParentList, Option.some.injEq, Prod.mk.injEq] at hp
    rcases hp with ⟨rfl, rfl⟩
    rfl
  · rcases path_decomp i j rest with ⟨hdec, hne⟩
    simp only [getParentList] at hp
    rcases hg : TodoList.get_at_path l (i :: j :: rest).dropLast with - | parent
    · rw [hg] at hp
      simp at hp
    · rw [hg] at hp
      simp only [Option.some.injEq, Prod.mk.injEq] at hp
      rcases hp with ⟨rfl, rfl⟩
      have hmod : modifyAt l.todos (i :: j :: rest).dropLast
          (fun u => u.withSubtasks new) ≠ none := by
        rw [Ne, modifyAt_eq_none_iff]
        rw [TodoList.get_at_path] at hg
        rw [hg]
        simp
      rcases Option.ne_none_iff_exists'.mp hmod with ⟨ts'', hts⟩
      have hget : getAt ts'' (i :: j :: rest).dropLast
          = some (parent.withSubtasks new) :=
        getAt_modifyAt_self l.todos _ _ parent hg ts'' hts
      simp only [setParentList, TodoList.get_at_path, hts, Option.getD_some]
      simp only [getParentList, TodoList.get_at_path]
      rw [hget]
      have hsub : (parent.withSubtasks new).subtasks = new := by
        cases parent
        rfl
      simp only [hsub]

/-- `save` changes only the ghost write counter. -/
theorem save_fields (l : TodoList) :
    (TodoList.save l).todos = l.todos
    ∧ (TodoList.save l).folded_ids = l.folded_ids
    ∧ (TodoList.save l).cluster_name = l.cluster_name
    ∧ (TodoList.save l).save_count = l.save_count + 1 :=
  ⟨rfl, rfl, rfl, rfl⟩

/-- `setParentList` changes only the task forest. -/
theorem setParentList_fields (l : TodoList) (path : List Nat) (new : List Todo) :
    (setParentList l path new).save_count = l.save_count
    ∧ (setParentList l path new).folded_ids = l.folded_ids
    ∧ (setParentList l path new).cluster_name = l.cluster_name := by
  rcases path with - | ⟨i, - | ⟨j, rest⟩⟩ <;> exact ⟨rfl, rfl, rfl⟩

/-! ## C8: `update_at_path` overwrites exactly three fields -/

/-- Claim C8: for every store, resolving path and (text, date, priority)
triple, `update_at_path` overwrites exactly the task's text, due date and
priority: its id, completed flag and child list survive inside the updated
node, every position that is not an ancestor-or-self of the path (in
particular the whole updated subtree below it and every unrelated task)
resolves to the very same task as before, strict ancestors keep all their
scalar data, and the store is saved exactly once. -/
theorem update_at_path_frame (l : TodoList) (path : List Nat) (text : List Char)
    (due : Option Int) (prio : Priority) (t : Todo)
    (h : TodoList.get_at_path l path = some t) :
    TodoList.get_at_path (l.update_at_path path text due prio) path
        = some (Todo.mk
            { t.data with
                text := text
                due_date := due
                priority := prio } t.subtasks)
    ∧ (∀ q, ¬ PathPrefixOf q path →
        TodoList.get_at_path (l.update_at_path path text due prio) q
          = TodoList.get_at_path l q)
    ∧ (∀ q, PathPrefixOf q path → q ≠ path →
        (TodoList.get_at_path (l.update_at_path path text due prio) q).map Todo.data
          = (TodoList.get_at_path l q).map Todo.data)
    ∧ (l.update_at_path path text due prio).save_count = l.save_count + 1
    ∧ (l.update_at_path path text due prio).folded_ids = l.folded_ids := by
  have hne : modifyAt l.todos path
      (fun u => Todo.mk
        { u.data with
            text := text
            due_date := due
            priority := prio } u.subtasks) ≠ none := by
    rw [Ne, modifyAt_eq_none_iff]
    rw [TodoList.get_at_path] at h
    rw [h]
    simp
  rcases Option.ne_none_iff_exists'.mp hne with ⟨ts', hm⟩
  have hres : l.update_at_path path text due prio
      = TodoList.save { l with todos := ts' } := by
    rw [TodoList.update_at_path, hm]
  rw [hres]
  refine ⟨?_, ?_, ?_, rfl, rfl⟩
  · exact getAt_modifyAt_self l.todos path _ t h ts' hm
  · intro q hq
    exact getAt_modifyAt_frame l.todos path _ (fun x => by cases x; rfl) ts' hm q hq
  · intro q hq hqe
    exact getAt_modifyAt_ancestor l.todos path _ ts' hm q hq hqe

/-- Witness for claim C8: updating the first child of the sample store's
parent rewrites its three fields, leaves the sibling and the untouched
ancestor data alone, and saves once. -/
theorem update_at_path_frame_witness :
    TodoList.get_at_path
        (sampleStore.update_at_path [0, 0] (str "new") (some 5) Priority.High) [0, 0]
      = some (Todo.mk ⟨str "b", str "new", false, some 5, 0, Priority.High, false⟩ [])
    ∧ TodoList.get_at_path
        (sampleStore.update_at_path [0, 0] (str "new") (some 5) Priority.High) [0, 1]
      = TodoList.get_at_path sampleStore [0, 1]
    ∧ (TodoList.get_at_path
        (sampleStore.update_at_path [0, 0] (str "new") (some 5) Priority.High) [0]).map
          Todo.data
      = (TodoList.get_at_path sampleStore [0]).map Todo.data
    ∧ (sampleStore.update_at_path [0, 0] (str "new") (some 5) Priority.High).save_count
      = sampleStore.save_count + 1 := by
  have h := update_at_path_frame sampleStore [0, 0] (str "new") (some 5) Priority.High
    (sampleTodo "b" "child one" false []) rfl
  refine ⟨h.1, h.2.1 [0, 1] ?_, h.2.2.1 [0] ⟨[0], rfl⟩ (by simp), h.2.2.2.1⟩
  rintro ⟨r, hr⟩
  rcases List.cons.injEq .. ▸ hr with ⟨-, hr2⟩
  rcases List.cons.injEq .. ▸ hr2 with ⟨h10, -⟩
  exact absurd h10 (by omega)

/-- A path with no parent view cannot resolve. -/
theorem getParentList_none_getAt (l : TodoList) (path : List Nat)
    (hp : getParentList l path = none) : getAt l.todos path = none := by
  rcases path with - | ⟨i, - | ⟨j, rest⟩⟩
  · rfl
  · simp [getParentList] at hp
  · simp only [getParentList] at hp
    rcases hg : TodoList.get_at_path l (i :: j :: rest).dropLast with - | parent
    · rcases path_decomp i j rest with ⟨hdec, hne⟩
      have hg' : getAt l.todos (i :: j :: rest).dropLast = none := hg
      have hx : getAt l.todos (i :: j :: rest)
          = (getAt l.todos (i :: j :: rest).dropLast).bind
            (fun u => u.subtasks[(i :: j :: rest).getLastD 0]?) := by
        conv_lhs => rw [← hdec]
        exact getAt_append_last l.todos _ _ hne
      rw [hx, hg']
      rfl
    · rw [hg] at hp
      simp at hp

/-! ## C7: unresolvable paths are silent no-ops, success persists -/

/-- Claim C7: when a path does not resolve to an existing task (any
out-of-range index at any depth, the empty path included), each of
`add_subtask`, `update_at_path`, `remove_at_path`, `toggle_at_path`,
`move_up` and `move_down` returns the store bit-for-bit unchanged - in
particular the ghost save counter is untouched, i.e. nothing is persisted.
Conversely, on a resolving path the first four save exactly once, and the
two moves save exactly once when they report success and leave the store
unchanged when they report failure (a boundary swap is not persisted). -/
theorem path_ops_not_found_noop (l : TodoList) (path : List Nat) (sub : Todo)
    (text : List Char) (due : Option Int) (prio : Priority) :
    (TodoList.get_at_path l path = none →
      l.add_subtask path sub = l
      ∧ l.update_at_path path text due prio = l
      ∧ l.remove_at_path path = l
      ∧ l.toggle_at_path path = (l, none)
      ∧ l.move_up path = (l, false)
      ∧ l.move_down path = (l, false))
    ∧ ((TodoList.get_at_path l path).isSome = true →
      (l.add_subtask path sub).save_count = l.save_count + 1
      ∧ (l.update_at_path path text due prio).save_count = l.save_count + 1
      ∧ (l.remove_at_path path).save_count = l.save_count + 1
      ∧ (l.toggle_at_path path).1.save_count = l.save_count + 1)
    ∧ ((l.move_up path).2 = true → (l.move_up path).1.save_count = l.save_count + 1)
    ∧ ((l.move_up path).2 = false → (l.move_up path).1 = l)
    ∧ ((l.move_down path).2 = true → (l.move_down path).1.save_count = l.save_count + 1)
    ∧ ((l.move_down path).2 = false → (l.move_down path).1 = l) := by
  refine ⟨?_, ?_, ?_, ?_, ?_, ?_⟩
  · intro h
    have hm : ∀ f, modifyAt l.todos path f = none :=
      fun f => (modifyAt_eq_none_iff l.todos path f).mpr h
    have h' : getAt l.todos path = none := h
    refine ⟨?_, ?_, ?_, ?_, ?_, ?_⟩
    · rw [TodoList.add_subtask, hm]
    · rw [TodoList.update_at_path, hm]
    · rcases getAt_none_parent_cases l path h with hp | ⟨list, idx, hp, hlen⟩
      · simp only [TodoList.remove_at_path, hp]
      · simp only [TodoList.remove_at_path, hp]
        rw [if_neg (by omega)]
    · simp only [TodoList.toggle_at_path, h']
    · rcases getAt_none_parent_cases l path h with hp | ⟨list, idx, hp, hlen⟩
      · simp only [TodoList.move_up, hp]
      · simp only [TodoList.move_up, hp]
        rw [if_neg (by omega)]
    · rcases getAt_none_parent_cases l path h with hp | ⟨list, idx, hp, hlen⟩
      · simp only [TodoList.move_down, hp]
      · simp only [TodoList.move_down, hp]
        rw [if_neg (by omega)]
  · intro h
    rcases hg : TodoList.get_at_path l path with - | t
    · rw [hg] at h
      simp at h
    · have hm : ∀ f, modifyAt l.todos path f ≠ none := by
        intro f hn
        rw [modifyAt_eq_none_iff] at hn
        rw [TodoList.get_at_path] at hg
        rw [hg] at hn
        simp at hn
      have hp : ∃ list idx, getParentList l path = some (list, idx)
          ∧ idx < list.length := by
        rcases hpp : getParentList l path with - | ⟨list, idx⟩
        · have hnone := getParentList_none_getAt l path hpp
          rw [TodoList.get_at_path] at hg
          rw [hg] at hnone
          simp at hnone
        · refine ⟨list, idx, rfl, ?_⟩
          have hslot := getAt_eq_parentSlot l path list idx hpp
          rw [TodoList.get_at_path] at hg
          rw [hg] at hslot
          exact (List.getElem?_eq_some.mp hslot.symm).1
      rcases hp with ⟨list, idx, hp, hlen⟩
      refine ⟨?_, ?_, ?_, ?_⟩
      · rcases Option.ne_none_iff_exists'.mp
          (hm fun u => u.withSubtasks (u.subtasks ++ [sub])) with ⟨ts', hts⟩
        rw [TodoList.add_subtask, hts]
        rfl
      · rcases Option.ne_none_iff_exists'.mp (hm _) with ⟨ts', hts⟩
        rw [TodoList.update_at_path, hts]
        rfl
      · simp only [TodoList.remove_at_path, hp]
        rw [if_pos hlen, (save_fields _).2.2.2, (setParentList_fields l path _).1]
      · rw [TodoList.get_at_path] at hg
        simp only [TodoList.toggle_at_path, hg]
        rw [(save_fields _).2.2.2]
        by_cases hc : (!t.data.completed) = true
        · rw [if_pos hc]
          rcases hpl : getParentList
              { l with todos :=
                  (modifyAt l.todos path Todo.toggleCompleted).getD l.todos } path
            with - | ⟨list1, idx1⟩
          · simp only [hpl]
          · simp only [hpl]
            rw [(setParentList_fields _ path _).1]
        · rw [if_neg hc]
  · intro h
    simp only [TodoList.move_up] at h ⊢
    rcases hp : getParentList l path with - | ⟨list, idx⟩
    · rw [hp] at h
      simp at h
    · simp only [hp] at h ⊢
      by_cases hc : 0 < idx ∧ idx < list.length
      · rw [if_pos hc]
        rw [(save_fields _).2.2.2, (setParentList_fields l path _).1]
      · rw [if_neg hc] at h
        simp at h
  · intro h
    simp only [TodoList.move_up] at h ⊢
    rcases hp : getParentList l path with - | ⟨list, idx⟩
    · rfl
    · simp only [hp] at h ⊢
      by_cases hc : 0 < idx ∧ idx < list.length
      · rw [if_pos hc] at h
        simp at h
      · rw [if_neg hc]
  · intro h
    simp only [TodoList.move_down] at h ⊢
    rcases hp : getParentList l path with - | ⟨list, idx⟩
    · rw [hp] at h
      simp at h
    · simp only [hp] at h ⊢
      by_cases hc : idx + 1 < list.length
      · rw [if_pos hc]
        rw [(save_fields _).2.2.2, (setParentList_fields l path _).1]
      · rw [if_neg hc] at h
        simp at h
  · intro h
    simp only [TodoList.move_down] at h ⊢
    rcases hp : getParentList l path with - | ⟨list, idx⟩
    · rfl
    · simp only [hp] at h ⊢
      by_cases hc : idx + 1 < list.length
      · rw [if_pos hc] at h
        simp at h
      · rw [if_neg hc]

/-- Witness for claim C7: the out-of-range path `[5]` leaves the sample
store untouched with nothing saved, while resolving operations save, and a
boundary `move_up` fails without saving. -/
theorem path_ops_not_found_noop_witness :
    sampleStore.add_subtask [5] (sampleTodo "x" "x" false []) = sampleStore
    ∧ sampleStore.toggle_at_path [5] = (sampleStore, none)
    ∧ sampleStore.move_up [5] = (sampleStore, false)
    ∧ (sampleStore.toggle_at_path [0]).1.save_count = sampleStore.save_count + 1
    ∧ (sampleStore.move_up [0]).1 = sampleStore := by
  have hA := (path_ops_not_found_noop sampleStore [5] (sampleTodo "x" "x" false [])
    [] none Priority.None).1 rfl
  have hB := path_ops_not_found_noop sampleStore [0] (sampleTodo "x" "x" false [])
    [] none Priority.None
  exact ⟨hA.1, hA.2.2.2.1, hA.2.2.2.2.1, (hB.2.1 rfl).2.2.2, hB.2.2.2.1 rfl⟩

/-- Erasing the slot that was just overwritten ignores the overwrite. -/
theorem eraseIdx_set_self (l : List Todo) (i : Nat) (a : Todo) :
    (l.set i a).eraseIdx i = l.eraseIdx i := by
  induction l generalizing i with
  | nil => rfl
  | cons x xs ih =>
    cases i with
    | zero => rfl
    | succ j =>
      simp only [List.set_cons_succ, List.eraseIdx_cons_succ]
      rw [ih j]

/-- The parent view ignores the ghost save counter. -/
theorem getParentList_save (l : TodoList) (path : List Nat) :
    getParentList (TodoList.save l) path = getParentList l path := by
  rcases path with - | ⟨i, - | ⟨j, rest⟩⟩ <;> rfl

/-! ## C4: `toggle_at_path` flips, relocates on completion only -/

/-- Claim C4: toggling a resolving path flips the task's completed flag.
If the task becomes completed it is spliced out of its sibling list and
pushed to that same list's end, and the index of that final slot
(`length - 1`) is returned; if it becomes incomplete it stays at its
position (the path still resolves to it) and no index is returned.  Both
ways the store is saved once. -/
theorem toggle_at_path_spec (l : TodoList) (path : List Nat) (list : List Todo)
    (idx : Nat) (hp : getParentList l path = some (list, idx)) (t : Todo)
    (ht : list[idx]? = some t) :
    (t.data.completed = false →
      (l.toggle_at_path path).2 = some (list.length - 1)
      ∧ getParentList (l.toggle_at_path path).1 path
          = some (list.eraseIdx idx ++ [t.toggleCompleted], idx)
      ∧ (l.toggle_at_path path).1.save_count = l.save_count + 1)
    ∧ (t.data.completed = true →
      (l.toggle_at_path path).2 = none
      ∧ getAt (l.toggle_at_path path).1.todos path = some t.toggleCompleted
      ∧ getParentList (l.toggle_at_path path).1 path
          = some (list.set idx t.toggleCompleted, idx)
      ∧ (l.toggle_at_path path).1.save_count = l.save_count + 1) := by
  have hg : getAt l.todos path = some t := by
    rw [getAt_eq_parentSlot l path list idx hp]
    exact ht
  have hlen : idx < list.length := (List.getElem?_eq_some.mp ht).1
  have hmne : modifyAt l.todos path Todo.toggleCompleted ≠ none := by
    rw [Ne, modifyAt_eq_none_iff, hg]
    simp
  rcases Option.ne_none_iff_exists'.mp hmne with ⟨ts', hts⟩
  have hp1 : getParentList { l with todos := ts' } path
      = some (list.set idx t.toggleCompleted, idx) :=
    getParentList_after_modify l path _ t hg ts' hts list idx hp
  have hg1 : getAt ts' path = some t.toggleCompleted :=
    getAt_modifyAt_self l.todos path _ t hg ts' hts
  simp only [TodoList.toggle_at_path, hg, hts, Option.getD_some]
  constructor
  · intro hc
    rw [if_pos (by simp [hc])]
    simp only [hp1]
    have htask : (list.set idx t.toggleCompleted).getD idx dummyTodo
        = t.toggleCompleted := by
      rw [List.getD_eq_getElem?_getD, List.getElem?_set_self (by simpa using hlen)]
      rfl
    rw [htask, eraseIdx_set_self]
    refine ⟨?_, ?_, ?_⟩
    · have hL : (list.eraseIdx idx ++ [t.toggleCompleted]).length = list.length := by
        rw [List.length_append, List.length_eraseIdx, if_pos hlen]
        simp
        omega
      simp only [hL]
    · rw [getParentList_save]
      exact getParentList_setParentList { l with todos := ts' } path
        (list.set idx t.toggleCompleted) idx hp1 (list.eraseIdx idx ++ [t.toggleCompleted])
    · rw [(save_fields _).2.2.2, (setParentList_fields _ path _).1]
  · intro hc
    rw [if_neg (by simp [hc])]
    refine ⟨rfl, hg1, ?_, rfl⟩
    rw [getParentList_save]
    exact hp1

/-- Witness for claim C4: completing the first child of the sample parent
splices it to the end of its two-element sibling list, returns index 1,
and saves once. -/
theorem toggle_at_path_spec_witness :
    (sampleStore.toggle_at_path [0, 0]).2 = some 1
    ∧ getParentList (sampleStore.toggle_at_path [0, 0]).1 [0, 0]
        = some ([sampleTodo "c" "child two" false [],
            (sampleTodo "b" "child one" false []).toggleCompleted], 0)
    ∧ (sampleStore.toggle_at_path [0, 0]).1.save_count = sampleStore.save_count + 1 := by
  have h := (toggle_at_path_spec sampleStore [0, 0]
    [sampleTodo "b" "child one" false [], sampleTodo "c" "child two" false []] 0 rfl
    (sampleTodo "b" "child one" false []) rfl).1 rfl
  exact ⟨h.1, h.2.1, h.2.2⟩

/-! ## C6: flatten is a pre-order walk that skips folded subtrees -/

/-- Claim C6: `flatten` walks depth-first in pre-order; a node whose id is
in the fold-set still produces its own row but the recursion does not
descend, so no descendant produces a row (folding is transitive for free);
an unfolded node is followed by its children's rows in order.
`toggle_fold` never touches the task data, and toggling the same id twice
restores the store exactly - hence the original flattened rows. -/
theorem flatten_fold_spec (l : TodoList) (t : Todo) (depth : Nat)
    (path : List Nat) (id : List Char) :
    (l.is_folded t.data.id = true →
      flattenTodo l t depth path
        = [⟨t, depth, path, t.hasSubtasks, true⟩])
    ∧ (l.is_folded t.data.id = false →
      flattenTodo l t depth path
        = ⟨t, depth, path, t.hasSubtasks, false⟩
            :: flattenChildren l t.subtasks (depth + 1) path 0)
    ∧ (l.toggle_fold id).todos = l.todos
    ∧ ((l.toggle_fold id).toggle_fold id) = l := by
  refine ⟨?_, ?_, ?_, ?_⟩
  · intro h
    cases t with
    | mk d subs =>
      simp only [Todo.data] at h
      simp [flattenTodo, h, Todo.hasSubtasks, Todo.subtasks]
  · intro h
    cases t with
    | mk d subs =>
      simp only [Todo.data] at h
      simp [flattenTodo, h, Todo.hasSubtasks, Todo.subtasks]
  · by_cases hm : id ∈ l.folded_ids <;> simp [TodoList.toggle_fold, hm]
  · by_cases hm : id ∈ l.folded_ids
    · have h1 : l.toggle_fold id = { l with folded_ids := l.folded_ids.erase id } := by
        rw [TodoList.toggle_fold, if_pos hm]
      rw [h1, TodoList.toggle_fold, if_neg (by simp)]
      show ({ l with folded_ids := insert id (l.folded_ids.erase id) } : TodoList) = l
      rw [Finset.insert_erase hm]
    · have h1 : l.toggle_fold id = { l with folded_ids := insert id l.folded_ids } := by
        rw [TodoList.toggle_fold, if_neg hm]
      rw [h1, TodoList.toggle_fold, if_pos (by simp)]
      show ({ l with folded_ids := (insert id l.folded_ids).erase id } : TodoList) = l
      rw [Finset.erase_insert hm]

/-- Witness for claim C6: folding the sample parent collapses its subtree
to the single parent row, the task data survives, and toggling the fold
again restores the store exactly. -/
theorem flatten_fold_spec_witness :
    flattenTodo (sampleStore.toggle_fold (str "a"))
        (sampleTodo "a" "parent" false
          [sampleTodo "b" "child one" false [], sampleTodo "c" "child two" false []])
        0 [0]
      = [⟨sampleTodo "a" "parent" false
            [sampleTodo "b" "child one" false [], sampleTodo "c" "child two" false []],
          0, [0], true, true⟩]
    ∧ (sampleStore.toggle_fold (str "a")).todos = sampleStore.todos
    ∧ ((sampleStore.toggle_fold (str "a")).toggle_fold (str "a")) = sampleStore := by
  have h := flatten_fold_spec (sampleStore.toggle_fold (str "a"))
    (sampleTodo "a" "parent" false
      [sampleTodo "b" "child one" false [], sampleTodo "c" "child two" false []])
    0 [0] (str "a")
  refine ⟨?_, (flatten_fold_spec sampleStore dummyTodo 0 [] (str "a")).2.2.1,
    (flatten_fold_spec sampleStore dummyTodo 0 [] (str "a")).2.2.2⟩
  rw [h.1 (by decide)]
  rfl

/-! ## C5: sort order -/

/-- The text comparator is symmetric under swapping. -/
theorem lexCmp_swap : ∀ s t : List Char, (lexCmp s t).swap = lexCmp t s
  | [], [] => rfl
  | [], _ :: _ => rfl
  | _ :: _, [] => rfl
  | a :: as', b :: bs' => by
    simp only [lexCmp]
    have hsw : (compare a.val b.val).swap = compare b.val a.val :=
      Batteries.OrientedCmp.symm a.val b.val
    cases h : compare a.val b.val with
    | lt =>
      have h2 : compare b.val a.val = .gt := by
        rw [← hsw, h]
        rfl
      rw [h2]
      rfl
    | gt =>
      have h2 : compare b.val a.val = .lt := by
        rw [← hsw, h]
        rfl
      rw [h2]
      rfl
    | eq =>
      have h2 : compare b.val a.val = .eq := by
        rw [← hsw, h]
        rfl
      rw [h2]
      exact lexCmp_swap as' bs'

/-- The text comparator is transitive in the `≠ gt` sense. -/
theorem lexCmp_le_trans : ∀ s t u : List Char,
    lexCmp s t ≠ .gt → lexCmp t u ≠ .gt → lexCmp s u ≠ .gt
  | [], t, u, _, _ => by
    cases u <;> simp [lexCmp]
  | _ :: _, [], u, h1, _ => absurd rfl h1
  | _ :: _, _ :: _, [], _, h2 => absurd rfl h2
  | a :: as', b :: bs', c :: cs', h1, h2 => by
    simp only [lexCmp] at h1 h2 ⊢
    cases hab : compare a.val b.val with
    | gt =>
      rw [hab] at h1
      exact absurd rfl h1
    | lt =>
      cases hbc : compare b.val c.val with
      | gt =>
        rw [hbc] at h2
        exact absurd rfl h2
      | lt =>
        rw [Batteries.TransCmp.lt_trans hab hbc]
        simp
      | eq =>
        rw [show compare a.val c.val = .lt from
          Batteries.TransCmp.cmp_congr_right hbc ▸ hab]
        simp
    | eq =>
      cases hbc : compare b.val c.val with
      | gt =>
        rw [hbc] at h2
        exact absurd rfl h2
      | lt =>
        rw [show compare a.val c.val = .lt from
          Batteries.TransCmp.cmp_congr_left hab ▸ hbc]
        simp
      | eq =>
        rw [hab] at h1
        rw [hbc] at h2
        rw [show compare a.val c.val = .eq from
          Batteries.TransCmp.cmp_congr_left hab ▸ hbc]
        exact lexCmp_le_trans as' bs' cs' h1 h2

/-- Folding an `if different then compare else rest` Bool tier into a
`then`-chain. -/
theorem ite_ne_then_bool (x y : Bool) (r : Ordering) :
    (if x ≠ y then compare x y else r) = (compare x y).then r := by
  cases x <;> cases y <;> rfl

/-- Folding an `if not-equal then this else rest` Ordering tier into a
`then`-chain. -/
theorem ite_ne_then_ord (o : Ordering) (r : Ordering) :
    (if o ≠ .eq then o else r) = o.then r := by
  cases o <;> rfl

/-- The source comparator agrees with its lexicographic form. -/
theorem todoCmp_eq_todoCmpLex (a b : Todo) : todoCmp a b = todoCmpLex a b := by
  unfold todoCmp todoCmpLex
  rw [ite_ne_then_bool, ite_ne_then_bool, ite_ne_then_ord, ite_ne_then_ord]
  simp only [compareLex, compareOn]
  rcases hda : a.data.due_date with - | da <;> rcases hdb : b.data.due_date with - | db <;>
    simp [Ordering.then, textCmpLower]
  rfl

/-- The lexicographic comparator form is a transitive, oriented
comparator. -/
theorem todoCmpLex_transCmp : Batteries.TransCmp todoCmpLex := by
  haveI h5 : Batteries.TransCmp textCmpLower :=
    { symm := fun x y => lexCmp_swap _ _
      le_trans := fun h1 h2 => lexCmp_le_trans _ _ _ h1 h2 }
  unfold todoCmpLex
  infer_instance

/-- `todoLe` is the `≠ gt` relation of the comparator. -/
theorem todoLe_eq_true_iff (a b : Todo) : todoLe a b = true ↔ todoCmp a b ≠ .gt := by
  unfold todoLe
  cases todoCmp a b <;> simp

/-- The sort relation is transitive. -/
theorem todoLe_trans (a b c : Todo) :
    todoLe a b = true → todoLe b c = true → todoLe a c = true := by
  rw [todoLe_eq_true_iff, todoLe_eq_true_iff, todoLe_eq_true_iff,
    todoCmp_eq_todoCmpLex, todoCmp_eq_todoCmpLex, todoCmp_eq_todoCmpLex]
  exact fun h1 h2 => todoCmpLex_transCmp.le_trans h1 h2

/-- The sort relation is total. -/
theorem todoLe_total (a b : Todo) : (todoLe a b || todoLe b a) = true := by
  cases h : todoCmp a b with
  | lt => simp [todoLe, h]
  | eq => simp [todoLe, h]
  | gt =>
    have h2 : todoCmp b a = .lt := by
      rw [todoCmp_eq_todoCmpLex] at h ⊢
      rw [← todoCmpLex_transCmp.symm a b, h]
      rfl
    simp [todoLe, h2]

/-- The child-sorting recursion is a map. -/
theorem sortEachChild_eq_map : ∀ ts : List Todo, sortEachChild ts = ts.map sortTodoDeep := by
  intro ts
  induction ts with
  | nil => simp [sortEachChild]
  | cons t rest ih => simp [sortEachChild, ih]

/-- The children of a deeply sorted task are its sorted children. -/
theorem sortTodoDeep_subtasks (v : Todo) :
    (sortTodoDeep v).subtasks = sort_todos v.subtasks := by
  cases v with
  | mk d subs => simp [sortTodoDeep, sort_todos, Todo.subtasks]

/-- Every sibling level of `sort_todos` output is sorted, recursively. -/
theorem allSorted_sort_todos (n : Nat) :
    ∀ ts : List Todo, sizeOf ts ≤ n → AllSorted (sort_todos ts) := by
  induction n with
  | zero =>
    intro ts h
    exfalso
    cases ts <;> simp at h
  | succ n ih =>
    intro ts hle
    refine AllSorted.intro _ (List.sorted_mergeSort todoLe_trans todoLe_total _) ?_
    intro t hmem
    rw [sort_todos, List.mem_mergeSort, sortEachChild_eq_map] at hmem
    rcases List.mem_map.mp hmem with ⟨v, hv, rfl⟩
    rw [sortTodoDeep_subtasks]
    refine ih v.subtasks ?_
    have h1 : sizeOf v < sizeOf ts := List.sizeOf_lt_of_mem hv
    have h2 : sizeOf v.subtasks < sizeOf v := by
      cases v with
      | mk d subs =>
        simp [Todo.subtasks]
    omega

/-- Claim C5: after `sort()` every sibling list at every depth (children
being sorted before the level containing them) is ordered by the strict
precedence the comparator implements: sections after non-sections,
completed after incomplete, priority ascending by rank
Max < High < Medium < Low < None, due date ascending with dateless tasks
last, and case-insensitive lexicographic text as final tiebreak - i.e. no
earlier sibling compares `Greater` (`todoLe`) to a later one, at any
level. -/
theorem sort_all_levels_sorted (l : TodoList) :
    AllSorted (TodoList.sort l).todos := by
  have h : (TodoList.sort l).todos = sort_todos l.todos := rfl
  rw [h]
  exact allSorted_sort_todos (sizeOf l.todos) l.todos le_rfl
